import Mathlib

/-!
# Kindle "My Clippings" viewer: the parsing pipeline of `parser.js`

A shallow embedding of `parseClippings`, `groupClippings`, `formatAsMarkdown`,
`displayAsHtml` with its click listeners, and the handler `reader.onload`.

* A JavaScript string is the list of its UTF-16 code units (`JSString`), so `.length`,
  `split`, `trim` and the regular expressions (none of which has the `u` flag) act on code
  units exactly as in the source.
* The `Map` of `parseClippings` is an association list in key insertion order.
* The plain object `{}` of `groupClippings` is an association list of its own properties in
  creation order, read through the prototype chain (`getProp`) and enumerated in `for...in`
  order (`forIn`).
* A raised `TypeError` is the result `none`.
* The page built by `displayAsHtml` is the list of its sections; a click on a header is a
  step on this list (`clickHeader`).
-/

namespace KindleClippings

/-- A JavaScript string: its UTF-16 code units. -/
abbrev JSString := List Nat

/-- The code units of a literal of the source (all of them are ASCII). -/
def lit (s : String) : JSString := s.toList.map Char.toNat

/-! ## String primitives -/

/-- The code units removed by `String.prototype.trim` (WhiteSpace and LineTerminator). -/
def isWhiteSpace (c : Nat) : Bool :=
  c = 9 || c = 10 || c = 11 || c = 12 || c = 13 || c = 32 || c = 160 || c = 5760 ||
  (8192 ≤ c && c ≤ 8202) || c = 8232 || c = 8233 || c = 8239 || c = 8287 ||
  c = 12288 || c = 65279

/-- The class `\d` of a regular expression: the ASCII digits. -/
def isDigit (c : Nat) : Bool := 48 ≤ c && c ≤ 57

/-- `s.trim()`. -/
def trim (s : JSString) : JSString :=
  ((s.dropWhile isWhiteSpace).reverse.dropWhile isWhiteSpace).reverse

/-- Worker of `split`: `skip` code units of a separator just found remain to be passed over,
`cur` is the piece being read, reversed. -/
def splitAux (sep : JSString) : JSString → Nat → JSString → List JSString
  | [], _, cur => [cur.reverse]
  | _ :: cs, skip + 1, cur => splitAux sep cs skip cur
  | c :: cs, 0, cur =>
    if sep.isPrefixOf (c :: cs) then cur.reverse :: splitAux sep cs (sep.length - 1) []
    else splitAux sep cs 0 (c :: cur)

/-- `s.split(sep)` for a non-empty separator string: the pieces between the occurrences of
`sep`, found from left to right without overlap. -/
def split (s sep : JSString) : List JSString := splitAux sep s 0 []

/-- `pieces.join(sep)`. -/
def join (sep : JSString) : List JSString → JSString
  | [] => []
  | [p] => p
  | p :: q :: rest => p ++ sep ++ join sep (q :: rest)

/-- `content.replace(/\r\n/g, '\n')`. -/
def replaceCRLF : JSString → JSString
  | [] => []
  | [c] => [c]
  | c :: d :: rest =>
    if c = 13 ∧ d = 10 then 10 :: replaceCRLF rest else c :: replaceCRLF (d :: rest)

/-- The value of a string of decimal digits. -/
def decimalValue (ds : JSString) : Nat := ds.foldl (fun acc d => 10 * acc + (d - 48)) 0

/-! ## The two regular expressions of `parseClippings` -/

/-- A match of `/(\d+)-(\d+)/` that starts at the head of `s`: the greedy `\d+` takes the
whole digit run, a hyphen must follow it (a shorter run is followed by a digit, so
backtracking cannot help), and the second greedy `\d+` takes the whole next digit run. -/
def rangeMatchAt (s : JSString) : Option JSString :=
  let d1 := s.takeWhile isDigit
  if d1 = [] then none
  else match s.drop d1.length with
    | [] => none
    | c :: rest =>
      let d2 := rest.takeWhile isDigit
      if c = 45 ∧ d2 ≠ [] then some (d1 ++ c :: d2) else none

/-- `metaLine.match(/(\d+)-(\d+)/)`: element `[0]` of the leftmost match, `none` for `null`. -/
def locationRangeRegex : JSString → Option JSString
  | [] => none
  | c :: cs =>
    match rangeMatchAt (c :: cs) with
    | some m => some m
    | none => locationRangeRegex cs

/-- A match of `/\(([^)]+)\)$/` that starts at the head of `s`: after `(` the greedy `[^)]+`
takes every code unit up to the next `)`, which must be the last code unit of `s`. The
result is capture group 1. -/
def authorMatchAt (s : JSString) : Option JSString :=
  match s with
  | [] => none
  | c :: rest =>
    let body := rest.takeWhile (fun x => x != 41)
    if c = 40 ∧ body ≠ [] ∧ rest.drop body.length = [41] then some body else none

/-- `titleLine.match(/\(([^)]+)\)$/)`: the pair (`index`, capture group 1) of the leftmost
match, `none` for `null`. -/
def authorRegex : JSString → Option (Nat × JSString)
  | [] => none
  | c :: cs =>
    match authorMatchAt (c :: cs) with
    | some a => some (0, a)
    | none => (authorRegex cs).map (fun r => (r.1 + 1, r.2))

/-! ## Step 1: `parseClippings` -/

/-- The record built for a valid highlight block. -/
structure Highlight where
  title : JSString
  author : JSString
  location : JSString
  metaLine : JSString
  content : JSString
  contentLength : Nat
  deriving DecidableEq, Repr

/-- The delimiter `'=========='`. -/
def delimiter : JSString := lit "=========="

/-- The `lines` of a raw block:
`rawClipping.trim().split('\n').map(line => line.trim()).filter(line => line.length > 0)`. -/
def blockLines (rawClipping : JSString) : List JSString :=
  ((split (trim rawClipping) [10]).map trim).filter (fun line => line.length > 0)

/-- Title and author from the title line. -/
def titleAuthor (titleLine : JSString) : JSString × JSString :=
  match authorRegex titleLine with
  | some (index, a) => (trim (titleLine.take index), a)
  | none => (titleLine, lit "Unknown Author")

/-- The meta line without a leading `'- '`. -/
def displayMeta (metaLine : JSString) : JSString :=
  if (lit "- ").isPrefixOf metaLine then metaLine.drop 2 else metaLine

/-- The part of the loop body before the de-duplication: `none` where the loop does
`continue` (filters 1 and 2), the `newClipping` record otherwise. -/
def extractHighlight (rawClipping : JSString) : Option Highlight :=
  match blockLines rawClipping with
  | titleLine :: metaLine :: l2 :: more =>
    match locationRangeRegex metaLine with
    | none => none
    | some location =>
      let ta := titleAuthor titleLine
      let contentText := join [10] (l2 :: more)
      some { title := ta.1, author := ta.2, location := location,
             metaLine := displayMeta metaLine, content := contentText,
             contentLength := contentText.length }
  | _ => none

/-- The de-duplication key: title, `|`, location. -/
def clipKey (c : Highlight) : JSString := c.title ++ 124 :: c.location

/-- The `Map` from keys to records, in key insertion order. -/
abbrev ClipMap := List (JSString × Highlight)

/-- `clippingsMap.get(key)`. -/
def mapGet : ClipMap → JSString → Option Highlight
  | [], _ => none
  | (k, v) :: rest, key => if k = key then some v else mapGet rest key

/-- `clippingsMap.set(key, value)`: an existing key keeps its position. -/
def mapSet : ClipMap → JSString → Highlight → ClipMap
  | [], key, value => [(key, value)]
  | (k, v) :: rest, key, value =>
    if k = key then (k, value) :: rest else (k, v) :: mapSet rest key value

/-- The de-duplication at the end of the loop body. -/
def dedupInsert (m : ClipMap) (newClipping : Highlight) : ClipMap :=
  match mapGet m (clipKey newClipping) with
  | none => mapSet m (clipKey newClipping) newClipping
  | some existingClipping =>
    if newClipping.contentLength > existingClipping.contentLength then
      mapSet m (clipKey newClipping) newClipping
    else m

/-- One iteration of the loop over the raw blocks. -/
def processBlock (m : ClipMap) (rawClipping : JSString) : ClipMap :=
  match extractHighlight rawClipping with
  | none => m
  | some newClipping => dedupInsert m newClipping

/-- The raw blocks: `content.replace(/\r\n/g, '\n').split('==========')`. -/
def rawClippings (content : JSString) : List JSString :=
  split (replaceCRLF content) delimiter

/-- `parseClippings(content)`. -/
def parseClippings (content : JSString) : List Highlight :=
  ((rawClippings content).foldl processBlock []).map Prod.snd

/-- The records of the valid highlight blocks of a text, in input order, before the
de-duplication. -/
def validRecords (content : JSString) : List Highlight :=
  (rawClippings content).filterMap extractHighlight

/-! ## Step 2: `groupClippings` -/

/-- The value of a book in `groupedByBook`. -/
structure BookGroup where
  author : JSString
  clips : List Highlight
  deriving DecidableEq, Repr

/-- The plain object `groupedByBook`: its own properties in creation order. -/
abbrev JSObject := List (JSString × BookGroup)

/-- The property names of `Object.prototype`, the prototype of `{}`. Each holds a function,
except the accessor `__proto__`, which reads as `Object.prototype` itself. -/
def objectPrototypeKeys : List JSString :=
  [lit "constructor", lit "__defineGetter__", lit "__defineSetter__", lit "hasOwnProperty",
   lit "__lookupGetter__", lit "__lookupSetter__", lit "isPrototypeOf",
   lit "propertyIsEnumerable", lit "toString", lit "valueOf", lit "__proto__",
   lit "toLocaleString"]

/-- What `groupedByBook[key]` reads. -/
inductive PropValue where
  | group (g : BookGroup)
  | inherited
  | undefined
  deriving DecidableEq, Repr

/-- The own property `key` of the object, if it has one. -/
def ownGet : JSObject → JSString → Option BookGroup
  | [], _ => none
  | (k, g) :: rest, key => if k = key then some g else ownGet rest key

/-- `groupedByBook[key]`: an own property, else a property of `Object.prototype` (a truthy
value that has no `clips`), else `undefined`. -/
def getProp (o : JSObject) (key : JSString) : PropValue :=
  match ownGet o key with
  | some g => .group g
  | none => if key ∈ objectPrototypeKeys then .inherited else .undefined

/-- Replaces the value of the own property `key`. -/
def ownSet : JSObject → JSString → BookGroup → JSObject
  | [], _, _ => []
  | (k, g) :: rest, key, value =>
    if k = key then (k, value) :: rest else (k, g) :: ownSet rest key value

/-- One iteration of the first loop of `groupClippings`. The group is created when
`groupedByBook[clip.title]` is falsy, that is `undefined`; then `.clips.push(clip)` raises a
`TypeError` when the value read has no `clips`. -/
def addClip (o : JSObject) (clip : Highlight) : Option JSObject :=
  let o1 :=
    match getProp o clip.title with
    | .undefined => o ++ [(clip.title, { author := clip.author, clips := [] })]
    | _ => o
  match getProp o1 clip.title with
  | .group g => some (ownSet o1 clip.title { g with clips := g.clips ++ [clip] })
  | _ => none

/-- The first loop of `groupClippings`. -/
def addClips : JSObject → List Highlight → Option JSObject
  | o, [] => some o
  | o, clip :: rest =>
    match addClip o clip with
    | none => none
    | some o1 => addClips o1 rest

/-- The number of binary digits of `n`, for `n ≤ fuel`. -/
def bitLength : Nat → Nat → Nat
  | 0, _ => 0
  | fuel + 1, n => if n = 0 then 0 else bitLength fuel (n / 2) + 1

/-- The Number that is nearest to the natural number `n` (round to nearest, ties to even,
53 significant bits). `2 ^ 1024` stands for `Infinity`: it is above every finite Number. -/
def toNumber (n : Nat) : Nat :=
  if n < 2 ^ 53 then n
  else
    let e := bitLength n n - 53
    let q := n / 2 ^ e
    let r := n % 2 ^ e
    let q1 := if 2 * r < 2 ^ e then q else if 2 ^ e < 2 * r then q + 1
              else if q % 2 = 0 then q else q + 1
    if 1024 < bitLength (q1 * 2 ^ e) (q1 * 2 ^ e) then 2 ^ 1024 else q1 * 2 ^ e

/-- `parseInt(digits)` for a non-empty string of decimal digits: the Number for the integer
that the digits denote. (Past 20 significant digits an engine may read the further digits as
zeros; the digits are read exactly here.) -/
def parseInt (digits : JSString) : Nat := toNumber (decimalValue digits)

/-- `loc.match(/(\d+)/)[0]`: the leftmost maximal digit run, `none` when there is no digit
(`match` returns `null` and the index raises a `TypeError`). -/
def firstDigitRun (loc : JSString) : Option JSString :=
  match loc.dropWhile (fun c => !isDigit c) with
  | [] => none
  | c :: cs => some ((c :: cs).takeWhile isDigit)

/-- The function `getLocNum` of the comparator. The run is never the empty string, so the
`|| 0` is never taken. -/
def getLocNum (loc : JSString) : Option Nat := (firstDigitRun loc).map parseInt

/-- The comparator `getLocNum(a.location) - getLocNum(b.location)` is not positive. The
difference of two Numbers has the sign of their order, and `Infinity - Infinity` is `NaN`,
which `sort` takes for `0`. -/
def locLE (a b : Highlight) : Prop :=
  (getLocNum a.location).getD 0 ≤ (getLocNum b.location).getD 0

instance : DecidableRel locLE := fun a b =>
  inferInstanceAs (Decidable ((getLocNum a.location).getD 0 ≤ (getLocNum b.location).getD 0))

/-- `clips.sort(comparator)`: the sort is stable; with fewer than two elements the
comparator is not called, otherwise it is called on every element and raises where a
location has no digit. -/
def sortClips (clips : List Highlight) : Option (List Highlight) :=
  if clips.length < 2 then some clips
  else if clips.all (fun c => (getLocNum c.location).isSome) then
    some (clips.insertionSort locLE)
  else none

/-- The second loop of `groupClippings`: sorts the clips of every book. -/
def sortGroups : JSObject → Option JSObject
  | [] => some []
  | (k, g) :: rest =>
    match sortClips g.clips, sortGroups rest with
    | some cs, some rest1 => some ((k, { g with clips := cs }) :: rest1)
    | _, _ => none

/-- `groupClippings(clippings)`; `none` when a `TypeError` is raised. -/
def groupClippings (clippings : List Highlight) : Option JSObject :=
  match addClips [] clippings with
  | none => none
  | some o => sortGroups o

/-- An array index: the canonical decimal form of an integer from 0 to 2^32 - 2. -/
def isArrayIndex (k : JSString) : Bool :=
  k = [48] || (k != [] && k.all isDigit && k.head? != some 48 && decimalValue k ≤ 4294967294)

/-- The properties of the object in the order of `for (const title in groupedByBook)`: the
array-index keys in ascending numeric order, then the other keys in creation order. -/
def forIn (o : JSObject) : List (JSString × BookGroup) :=
  (o.filter (fun p => isArrayIndex p.1)).insertionSort
      (fun p q => decimalValue p.1 ≤ decimalValue q.1) ++
    o.filter (fun p => !isArrayIndex p.1)

/-! ## Step 3: `formatAsMarkdown` -/

/-- The text added for one clip. -/
def formatClip (clip : Highlight) : JSString :=
  lit "> " ++ join (lit "\n> ") (split clip.content [10]) ++ lit "\n" ++
    lit "> (" ++ clip.metaLine ++ lit ")\n\n"

/-- The text added for one book. -/
def formatBook (title : JSString) (book : BookGroup) : JSString :=
  lit "## " ++ title ++ lit "\n" ++ lit "### by " ++ book.author ++ lit "\n\n" ++
    (book.clips.map formatClip).flatten ++ lit "----\n\n"

/-- `formatAsMarkdown(groupedByBook)`. -/
def formatAsMarkdown (o : JSObject) : JSString :=
  (forIn o).foldl (fun out p => out ++ formatBook p.1 p.2) (lit "# My Kindle Highlights\n\n")

/-! ## Step 4: `displayAsHtml` -/

/-- A rendered `book-container`: the texts of its header, its quotes (the `innerHTML` of the
paragraph and the text of the `small` element), the class list of the header and the inline
`style.display` of the list of clippings. -/
structure BookSection where
  title : JSString
  authorText : JSString
  quotes : List (JSString × JSString)
  headerClasses : List JSString
  display : JSString
  deriving DecidableEq, Repr

/-- `clip.content.replace(/\n/g, '<br>')`. -/
def replaceNewlinesBr : JSString → JSString
  | [] => []
  | c :: cs => if c = 10 then lit "<br>" ++ replaceNewlinesBr cs else c :: replaceNewlinesBr cs

/-- The children that `displayAsHtml(groupedByBook, container)` gives the emptied container:
one section per book in `for...in` order, its header with the class `book-header` and its
list with no inline `display`. -/
def displayAsHtml (o : JSObject) : List BookSection :=
  (forIn o).map (fun p =>
    { title := p.1,
      authorText := lit "by " ++ p.2.author,
      quotes := p.2.clips.map (fun clip =>
        (replaceNewlinesBr clip.content, lit "(" ++ clip.metaLine ++ lit ")")),
      headerClasses := [lit "book-header"],
      display := [] })

/-- `classList.toggle(token)`. -/
def classListToggle (classes : List JSString) (token : JSString) : List JSString :=
  if token ∈ classes then classes.filter (fun c => c != token) else classes ++ [token]

/-- The click listener of a header: it closes over the header and the list of its own
section. -/
def clickListener (s : BookSection) : BookSection :=
  { s with
    headerClasses := classListToggle s.headerClasses (lit "active"),
    display := if s.display = lit "block" then lit "none" else lit "block" }

/-- A click on the header of section `i` of the page. -/
def clickHeader : Nat → List BookSection → List BookSection
  | _, [] => []
  | 0, s :: rest => clickListener s :: rest
  | i + 1, s :: rest => s :: clickHeader i rest

/-! ## The handler `reader.onload` -/

/-- Steps 1 to 3 of `reader.onload`: the Markdown text written to the output area, `none`
when a step raises (the `catch` branch reports the error in the status line). -/
def onload (content : JSString) : Option JSString :=
  match groupClippings (parseClippings content) with
  | none => none
  | some groupedData => some (formatAsMarkdown groupedData)

/-! ## Notions used by the statements -/

/-- The string `m` is a run of digits, a hyphen, a run of digits (both runs non-empty). -/
def IsRange (m : JSString) : Prop :=
  ∃ d1 d2 : JSString, d1 ≠ [] ∧ d2 ≠ [] ∧ (∀ c ∈ d1, isDigit c = true) ∧
    (∀ c ∈ d2, isDigit c = true) ∧ m = d1 ++ 45 :: d2

/-- The string `s` contains a substring of the form digits, hyphen, digits. -/
def HasRange (s : JSString) : Prop :=
  ∃ pre m post : JSString, s = pre ++ m ++ post ∧ IsRange m

/-- The distinct elements of a list of strings, in the order of their first occurrence. -/
def firstOccurrences : List JSString → List JSString
  | [] => []
  | k :: ks => k :: (firstOccurrences ks).filter (fun x => x != k)

/-- The state of the loop of `parseClippings` after the valid records `rs`: the keys of the
map are the keys of `rs` in the order of their first occurrence, and the value of a key is
the first record of `rs` among those of maximal content length with this key. -/
structure DedupInv (m : ClipMap) (rs : List Highlight) : Prop where
  order : m.map Prod.fst = firstOccurrences (rs.map clipKey)
  entry : ∀ p ∈ m, p.1 = clipKey p.2 ∧ ∃ pre post, rs = pre ++ p.2 :: post ∧
    (∀ r ∈ pre, clipKey r = p.1 → r.contentLength < p.2.contentLength) ∧
    (∀ r ∈ post, clipKey r = p.1 → r.contentLength ≤ p.2.contentLength)

/-- The greatest content length in a list of records (0 for the empty list). -/
def maxLength (l : List Highlight) : Nat := (l.map (fun x => x.contentLength)).foldr max 0

/-- The integer value of the first digit run of a location (0 when it has no digit). -/
def firstNumber (loc : JSString) : Nat := ((firstDigitRun loc).map decimalValue).getD 0

/-- The state of the first loop of `groupClippings` after the clips `done`: the keys of the
object are the titles of `done` in the order of their first occurrence, the clips of a title
are the clips of `done` with this title, in order, and the author is that of the first. -/
structure GroupInv (o : JSObject) (done : List Highlight) : Prop where
  order : o.map Prod.fst = firstOccurrences (done.map (fun c => c.title))
  entry : ∀ p ∈ o, p.2.clips = done.filter (fun c => c.title = p.1) ∧
    ∃ c0 rest, p.2.clips = c0 :: rest ∧ p.2.author = c0.author

instance : IsTotal Highlight locLE := ⟨fun _ _ => Nat.le_total _ _⟩

instance : IsTrans Highlight locLE := ⟨fun _ _ _ h1 h2 => Nat.le_trans h1 h2⟩

/-- The string with every line feed replaced by `"\n> "`. -/
def quoteNewlines : JSString → JSString
  | [] => []
  | c :: cs => if c = 10 then lit "\n> " ++ quoteNewlines cs else c :: quoteNewlines cs

/-- The Markdown text in the words of the specification, for the groups in their order of
enumeration: the header, then for each group its title line and author line, for each clip
the quoted content and the meta line in parentheses, and the separator after the group. -/
def markdownSpec (groups : List (JSString × BookGroup)) : JSString :=
  lit "# My Kindle Highlights\n\n" ++
    (groups.map (fun p =>
      lit "## " ++ p.1 ++ lit "\n### by " ++ p.2.author ++ lit "\n\n" ++
        (p.2.clips.map (fun clip =>
          lit "> " ++ quoteNewlines clip.content ++ lit "\n> (" ++ clip.metaLine ++
            lit ")\n\n")).flatten ++
        lit "----\n\n")).flatten

/-- The text with every line feed replaced by carriage return, line feed (the line endings
of Windows). -/
def toCRLF : JSString → JSString
  | [] => []
  | c :: cs => if c = 10 then 13 :: 10 :: toCRLF cs else c :: toCRLF cs

/-- Modelled from the spec: the style sheet of the page is not part of the sources; by the
specification a section is collapsed when rendered, so its list is shown exactly when the
click listener has set its inline `display` to `block`. -/
def shown (s : BookSection) : Prop := s.display = lit "block"

instance (s : BookSection) : Decidable (shown s) :=
  inferInstanceAs (Decidable (s.display = lit "block"))

/-- The page after a sequence of clicks on headers, given by the indices of the sections. -/
def afterClicks (page : List BookSection) (clicks : List Nat) : List BookSection :=
  clicks.foldl (fun pg i => clickHeader i pg) page

/-! ## Inputs of the examples -/

/-- The end-to-end input of the specification: two blocks of `Book One`, the first at
location 10-12, the second at location 1-3. -/
def e2eText : JSString :=
  lit "Book One (Jane Doe)\n- Your Highlight at location 10-12 | Added on ...\nFirst highlight text\n==========\nBook One (Jane Doe)\n- Your Highlight at location 1-3 | Added on ...\nSecond highlight text\n==========\n"

/-- Two blocks with the same title and location, of content lengths 5 and 10. -/
def dupText : JSString :=
  lit "Book (Ann)\n- location 1-2\nabcde\n==========\nBook (Ann)\n- location 1-2\nabcdefghij\n"

/-- Two blocks with the same title and location and contents of equal length, which differ
in author and meta line. -/
def tieText : JSString :=
  lit "Book (Ann)\n- location 1-2 | Monday\nabc\n==========\nBook (Bob)\n- location 1-2 | Friday\nxyz\n"

/-- Two blocks of one book whose locations start with 2^53 + 1 and with 2^53, in this
order. -/
def bigLocText : JSString :=
  lit "Book (Ann)\n- location 9007199254740993-9007199254740995\nfirst\n==========\nBook (Ann)\n- location 9007199254740992-9007199254740994\nsecond\n"

/-- Two blocks with the same title and location; the second has another author and a longer
content. -/
def authorText : JSString :=
  lit "Book (Ann)\n- location 1-2\nabc\n==========\nBook (Bob)\n- location 1-2\nabcdef\n"

/-- A highlight of `Dune` followed by a highlight of `1984`. -/
def duneText : JSString :=
  lit "Dune (Frank Herbert)\n- location 10-12\nFear is the mind-killer\n==========\n1984 (George Orwell)\n- location 3-4\nBig Brother\n"

/-- A single highlight of a book with the title `constructor`. -/
def constructorText : JSString :=
  lit "constructor\n- location 1-2\nabc\n"

/-- A block whose title line has an opening parenthesis that is not closed before the
author. -/
def parenBlock : JSString :=
  lit "Foo (bar (baz)\n- location 1-2\nabc"

/-- A block whose meta line holds a page range before the location range. -/
def pageText : JSString :=
  lit "Book\n- page 12-13 | location 100-105\nabc"

/-- A single highlight of a book with the title `toString`. -/
def toStringText : JSString :=
  lit "toString (Ann)\n- location 1-2\nabc\n==========\n"

/-- A grouped structure with two books, each with one clip. -/
def twoBooks : JSObject :=
  [(lit "Dune", ⟨lit "Frank Herbert",
      [⟨lit "Dune", lit "Frank Herbert", lit "10-12", lit "location 10-12",
        lit "Fear is the mind-killer", 23⟩]⟩),
   (lit "Emma", ⟨lit "Jane Austen",
      [⟨lit "Emma", lit "Jane Austen", lit "3-4", lit "location 3-4",
        lit "Handsome, clever, and rich", 26⟩]⟩)]

/-- Three highlights of one book, at the locations 10-15, 3-4 and 10-12. -/
def stableClips : List Highlight :=
  [⟨lit "Book", lit "Ann", lit "10-15", lit "location 10-15", lit "a", 1⟩,
   ⟨lit "Book", lit "Ann", lit "3-4", lit "location 3-4", lit "b", 1⟩,
   ⟨lit "Book", lit "Ann", lit "10-12", lit "location 10-12", lit "c", 1⟩]

/-- Three blocks of one book: at 1-2, at 5-6, and at 1-2 again with a longer content. -/
def orderText : JSString :=
  lit "Book (Ann)\n- location 1-2\nabc\n==========\nBook (Ann)\n- location 5-6\nxyz\n==========\nBook (Ann)\n- location 1-2\nabcdef\n"

/-! ## Lemmas on the string primitives -/

theorem splitAux_of_not_infix (sep : JSString) :
    ∀ (s cur : JSString), ¬ sep <:+: s → splitAux sep s 0 cur = [cur.reverse ++ s] := by
  intro s
  induction s with
  | nil => intro cur _; simp [splitAux]
  | cons c cs ih =>
    intro cur h
    have hp : ¬ sep <+: c :: cs := fun hp => h hp.isInfix
    have hi : ¬ sep <:+: cs := fun hi => h (List.infix_cons hi)
    simp [splitAux, hp, ih (c :: cur) hi]

theorem split_of_not_infix (s sep : JSString) (h : ¬ sep <:+: s) : split s sep = [s] := by
  simp [split, splitAux_of_not_infix sep s [] h]

theorem prefix_of_prefix_replaceCRLF (sep : JSString) (h10 : 10 ∉ sep) :
    ∀ t : JSString, sep <+: replaceCRLF t → sep <+: t := by
  intro t
  induction t using replaceCRLF.induct generalizing sep with
  | case1 => simp [replaceCRLF]
  | case2 c => simp [replaceCRLF]
  | case3 c d rest hcd ih =>
    intro h
    rw [replaceCRLF, if_pos hcd, List.prefix_cons_iff] at h
    rcases h with h | ⟨t, ht, _⟩
    · subst h; exact List.nil_prefix
    · subst ht; simp at h10
  | case4 c d rest hcd ih =>
    intro h
    rw [replaceCRLF, if_neg hcd, List.prefix_cons_iff] at h
    rcases h with h | ⟨t, ht, hpre⟩
    · subst h; exact List.nil_prefix
    · subst ht
      have h10t : 10 ∉ t := fun hm => h10 (List.mem_cons_of_mem _ hm)
      exact (List.prefix_cons_inj c).2 (ih t h10t hpre)

theorem infix_of_infix_replaceCRLF (sep : JSString) (h10 : 10 ∉ sep) :
    ∀ t : JSString, sep <:+: replaceCRLF t → sep <:+: t := by
  intro t
  induction t using replaceCRLF.induct with
  | case1 => simp [replaceCRLF]
  | case2 c => simp [replaceCRLF]
  | case3 c d rest hcd ih =>
    intro h
    rw [replaceCRLF, if_pos hcd, List.infix_cons_iff, List.prefix_cons_iff] at h
    rcases h with (h | ⟨t, ht, _⟩) | h
    · subst h; exact List.nil_infix
    · subst ht; simp at h10
    · exact List.infix_cons (List.infix_cons (ih h))
  | case4 c d rest hcd ih =>
    intro h
    rw [replaceCRLF, if_neg hcd, List.infix_cons_iff] at h
    rcases h with h | h
    · have h1 : sep <+: replaceCRLF (c :: d :: rest) := by
        rw [replaceCRLF, if_neg hcd]; exact h
      exact (prefix_of_prefix_replaceCRLF sep h10 _ h1).isInfix
    · exact List.infix_cons (ih h)

theorem rawClippings_of_no_delimiter (text : JSString) (h : ¬ delimiter <:+: text) :
    rawClippings text = [replaceCRLF text] := by
  have h10 : 10 ∉ delimiter := by decide
  exact split_of_not_infix _ _ (fun hi => h (infix_of_infix_replaceCRLF _ h10 _ hi))

/-! ## Lemmas on the location regular expression -/

theorem drop_takeWhile_length (p : Nat → Bool) (s : JSString) :
    s.drop (s.takeWhile p).length = s.dropWhile p := by
  have h := List.drop_left (s.takeWhile p) (s.dropWhile p)
  rwa [List.takeWhile_append_dropWhile] at h

theorem isDigit_of_mem_takeWhile {s : JSString} {c : Nat} (h : c ∈ s.takeWhile isDigit) :
    isDigit c = true := (List.mem_takeWhile_imp h)

theorem head_dropWhile_not (p : Nat → Bool) (s : JSString) (c : Nat) (rest : JSString)
    (h : s.dropWhile p = c :: rest) : p c = false := by
  induction s with
  | nil => simp at h
  | cons a l ih =>
    by_cases ha : p a = true
    · rw [List.dropWhile_cons_of_pos ha] at h; exact ih h
    · rw [List.dropWhile_cons_of_neg ha] at h
      injection h with h1 _
      subst h1; simpa using ha

theorem takeWhile_isDigit_range (d : JSString) (c : Nat) (rest : JSString)
    (hd : ∀ x ∈ d, isDigit x = true) (hc : isDigit c = false) :
    (d ++ c :: rest).takeWhile isDigit = d := by
  rw [List.takeWhile_append_of_pos hd, List.takeWhile_cons_of_neg (by simp [hc])]
  simp

/-- A string that starts with a range is matched at its head. -/
theorem rangeMatchAt_of_range (m post : JSString) (hm : IsRange m) :
    ∃ m1, rangeMatchAt (m ++ post) = some m1 := by
  obtain ⟨d1, d2, h1, h2, hd1, hd2, rfl⟩ := hm
  have h45 : isDigit 45 = false := by decide
  have ht : (d1 ++ 45 :: d2 ++ post).takeWhile isDigit = d1 := by
    rw [List.append_assoc]; exact takeWhile_isDigit_range d1 45 _ hd1 h45
  have hdrop : (d1 ++ 45 :: d2 ++ post).drop d1.length = 45 :: (d2 ++ post) := by
    rw [List.append_assoc]; simp
  have h2t : (d2 ++ post).takeWhile isDigit ≠ [] := by
    rw [List.takeWhile_append_of_pos hd2]
    simp [h2]
  refine ⟨d1 ++ 45 :: (d2 ++ post).takeWhile isDigit, ?_⟩
  simp only [rangeMatchAt, ht, hdrop]
  simp [h1, h2t]

/-- What a match at the head is: a range that is a prefix of the string and is not followed
by a digit. -/
theorem rangeMatchAt_some (s m : JSString) (h : rangeMatchAt s = some m) :
    IsRange m ∧ ∃ post, s = m ++ post ∧ ∀ c rest, post = c :: rest → isDigit c = false := by
  unfold rangeMatchAt at h
  simp only at h
  split at h
  · exact absurd h (by simp)
  · rename_i hd1
    rw [drop_takeWhile_length] at h
    split at h
    · exact absurd h (by simp)
    · rename_i c rest hdrop
      split at h
      · rename_i hc
        injection h with h
        obtain ⟨hc45, hd2⟩ := hc
        subst hc45
        refine ⟨⟨s.takeWhile isDigit, rest.takeWhile isDigit, hd1, hd2,
          fun x hx => isDigit_of_mem_takeWhile hx, fun x hx => isDigit_of_mem_takeWhile hx,
          h.symm⟩, rest.dropWhile isDigit, ?_, ?_⟩
        · rw [← h, List.append_assoc, List.cons_append, List.takeWhile_append_dropWhile,
            ← hdrop, List.takeWhile_append_dropWhile]
        · intro c1 rest1 hpost
          exact head_dropWhile_not isDigit rest c1 rest1 hpost
      · exact absurd h (by simp)

/-- The regular expression returns the leftmost match: a range inside the string, not
followed by a digit, with no range starting before it. -/
theorem locationRangeRegex_some :
    ∀ (s m : JSString), locationRangeRegex s = some m →
      IsRange m ∧ ∃ pre post, s = pre ++ m ++ post ∧
        (∀ c rest, post = c :: rest → isDigit c = false) ∧
        ∀ pre1 m1 post1, s = pre1 ++ m1 ++ post1 → IsRange m1 → pre.length ≤ pre1.length := by
  intro s
  induction s with
  | nil => intro m h; simp [locationRangeRegex] at h
  | cons c cs ih =>
    intro m h
    rw [locationRangeRegex] at h
    split at h
    · rename_i m0 hm0
      injection h with h; subst h
      obtain ⟨hr, post, hs, hpost⟩ := rangeMatchAt_some _ _ hm0
      exact ⟨hr, [], post, by simpa using hs, hpost, fun _ _ _ _ _ => by simp⟩
    · rename_i hnone
      obtain ⟨hr, pre, post, hs, hpost, hleft⟩ := ih m h
      refine ⟨hr, c :: pre, post, by simp [hs], hpost, ?_⟩
      intro pre1 m1 post1 hs1 hm1
      cases pre1 with
      | nil =>
        exfalso
        obtain ⟨m2, hm2⟩ := rangeMatchAt_of_range m1 post1 hm1
        simp only [List.nil_append] at hs1
        rw [← hs1, hnone] at hm2
        exact absurd hm2 (by simp)
      | cons a pre2 =>
        simp only [List.cons_append, List.cons.injEq] at hs1
        have := hleft pre2 m1 post1 hs1.2 hm1
        simp only [List.length_cons]; omega

theorem locationRangeRegex_isSome_iff (s : JSString) :
    (∃ m, locationRangeRegex s = some m) ↔ HasRange s := by
  constructor
  · rintro ⟨m, h⟩
    obtain ⟨hr, pre, post, hs, _⟩ := locationRangeRegex_some s m h
    exact ⟨pre, m, post, hs, hr⟩
  · rintro ⟨pre, m, post, hs, hr⟩
    subst hs
    induction pre with
    | nil =>
      obtain ⟨m1, hm1⟩ := rangeMatchAt_of_range m post hr
      obtain ⟨d1, d2, h1, _, _, _, rfl⟩ := hr
      cases d1 with
      | nil => exact absurd rfl h1
      | cons a d1 =>
        refine ⟨m1, ?_⟩
        simp only [List.nil_append, List.cons_append] at hm1 ⊢
        rw [locationRangeRegex, hm1]
    | cons a pre ih =>
      obtain ⟨m0, hm0⟩ := ih
      simp only [List.cons_append]
      rw [locationRangeRegex]
      cases hc : rangeMatchAt (a :: (pre ++ m ++ post)) with
      | none => exact ⟨m0, by simpa using hm0⟩
      | some m1 => exact ⟨m1, rfl⟩

theorem not_mem_of_isRange {m : JSString} (hm : IsRange m) : 124 ∉ m := by
  obtain ⟨d1, d2, _, _, hd1, hd2, rfl⟩ := hm
  intro h
  rcases List.mem_append.1 h with h | h
  · exact absurd (hd1 _ h) (by decide)
  · rcases List.mem_cons.1 h with h | h
    · exact absurd h (by decide)
    · exact absurd (hd2 _ h) (by decide)

/-! ## Lemmas on the extraction of one block -/

theorem extractHighlight_some (b : JSString) (h : Highlight) (hx : extractHighlight b = some h) :
    ∃ l0 l1 l2 more, blockLines b = l0 :: l1 :: l2 :: more ∧
      locationRangeRegex l1 = some h.location ∧
      h.title = (titleAuthor l0).1 ∧ h.author = (titleAuthor l0).2 ∧
      h.metaLine = displayMeta l1 ∧ h.content = join [10] (l2 :: more) ∧
      h.contentLength = h.content.length := by
  unfold extractHighlight at hx
  split at hx
  · rename_i l0 l1 l2 more hl
    split at hx
    · exact absurd hx (by simp)
    · rename_i loc hloc
      injection hx with hx
      subst hx
      exact ⟨l0, l1, l2, more, hl, hloc, rfl, rfl, rfl, rfl, rfl⟩
  · exact absurd hx (by simp)

theorem extractHighlight_isSome_iff (b : JSString) :
    (∃ h, extractHighlight b = some h) ↔
      ∃ l0 l1 l2 more, blockLines b = l0 :: l1 :: l2 :: more ∧ HasRange l1 := by
  constructor
  · rintro ⟨h, hx⟩
    obtain ⟨l0, l1, l2, more, hl, hloc, _⟩ := extractHighlight_some b h hx
    exact ⟨l0, l1, l2, more, hl, (locationRangeRegex_isSome_iff l1).1 ⟨_, hloc⟩⟩
  · rintro ⟨l0, l1, l2, more, hl, hr⟩
    obtain ⟨m, hm⟩ := (locationRangeRegex_isSome_iff l1).2 hr
    unfold extractHighlight
    rw [hl]
    simp only [hm]
    exact ⟨_, rfl⟩

theorem isRange_location (b : JSString) (h : Highlight) (hx : extractHighlight b = some h) :
    IsRange h.location := by
  obtain ⟨l0, l1, l2, more, _, hloc, _⟩ := extractHighlight_some b h hx
  exact (locationRangeRegex_some l1 _ hloc).1

theorem parseClippings_of_single (text b : JSString) (h : rawClippings text = [b]) :
    parseClippings text = (extractHighlight b).toList := by
  unfold parseClippings
  rw [h]
  simp only [List.foldl_cons, List.foldl_nil, processBlock]
  cases extractHighlight b with
  | none => rfl
  | some hl => simp [dedupInsert, mapGet, mapSet]

theorem three_lines_iff (lines : List JSString) :
    (3 ≤ lines.length ∧ HasRange (lines.getD 1 [])) ↔
      ∃ l0 l1 l2 more, lines = l0 :: l1 :: l2 :: more ∧ HasRange l1 := by
  constructor
  · rintro ⟨hlen, hr⟩
    match lines, hlen, hr with
    | l0 :: l1 :: l2 :: more, _, hr => exact ⟨l0, l1, l2, more, rfl, by simpa using hr⟩
  · rintro ⟨l0, l1, l2, more, rfl, hr⟩
    exact ⟨by simp, by simpa using hr⟩

/-! ## C1: a text without delimiter -/

/-- C1. A text that contains no `==========` is a single block (the text with its line
endings normalised). `parseClippings` returns exactly one highlight, the record extracted
from the block, when the block has at least 3 non-empty trimmed lines and the second of
them contains a substring digits-hyphen-digits, and the empty list otherwise. -/
theorem parseClippings_single_block (text : JSString) (h : ¬ delimiter <:+: text) :
    rawClippings text = [replaceCRLF text] ∧
    ((3 ≤ (blockLines (replaceCRLF text)).length ∧
        HasRange ((blockLines (replaceCRLF text)).getD 1 [])) →
      ∃ hl, parseClippings text = [hl] ∧ extractHighlight (replaceCRLF text) = some hl) ∧
    (¬ (3 ≤ (blockLines (replaceCRLF text)).length ∧
        HasRange ((blockLines (replaceCRLF text)).getD 1 [])) →
      parseClippings text = []) := by
  have hraw := rawClippings_of_no_delimiter text h
  have hp := parseClippings_of_single text _ hraw
  refine ⟨hraw, ?_, ?_⟩
  · intro hv
    obtain ⟨hl, hx⟩ := (extractHighlight_isSome_iff _).2 ((three_lines_iff _).1 hv)
    exact ⟨hl, by rw [hp, hx]; rfl, hx⟩
  · intro hv
    cases hx : extractHighlight (replaceCRLF text) with
    | none => rw [hp, hx]; rfl
    | some hl =>
      exact absurd ((three_lines_iff _).2 ((extractHighlight_isSome_iff _).1 ⟨hl, hx⟩)) hv

/-- C1 at two texts without delimiter. `Book\n- Your Highlight at location 10-12\nSome
text` has three lines and a range in the second: one highlight is returned. In
`Book\n- Your Highlight at location 42\nSome text` the second line holds a single number:
nothing is returned. -/
theorem parseClippings_single_block_witness :
    (¬ delimiter <:+: lit "Book\n- Your Highlight at location 10-12\nSome text" ∧
      parseClippings (lit "Book\n- Your Highlight at location 10-12\nSome text") =
        [⟨lit "Book", lit "Unknown Author", lit "10-12",
          lit "Your Highlight at location 10-12", lit "Some text", 9⟩]) ∧
    (¬ delimiter <:+: lit "Book\n- Your Highlight at location 42\nSome text" ∧
      parseClippings (lit "Book\n- Your Highlight at location 42\nSome text") = []) := by
  have hd1 : ¬ delimiter <:+: lit "Book\n- Your Highlight at location 10-12\nSome text" := by
    decide
  have hd2 : ¬ delimiter <:+: lit "Book\n- Your Highlight at location 42\nSome text" := by
    decide
  refine ⟨⟨hd1, ?_⟩, hd2, ?_⟩
  · obtain ⟨hl, hp, hx⟩ := (parseClippings_single_block _ hd1).2.1
      ⟨by decide, (locationRangeRegex_isSome_iff _).1 ⟨lit "10-12", by decide⟩⟩
    have hx1 : extractHighlight (replaceCRLF
        (lit "Book\n- Your Highlight at location 10-12\nSome text")) =
        some ⟨lit "Book", lit "Unknown Author", lit "10-12",
          lit "Your Highlight at location 10-12", lit "Some text", 9⟩ := by decide
    rw [hx1] at hx
    injection hx with hx
    rw [hp, hx]
  · apply (parseClippings_single_block _ hd2).2.2
    rintro ⟨_, hr⟩
    obtain ⟨m, hm⟩ := (locationRangeRegex_isSome_iff _).2 hr
    have hn : locationRangeRegex ((blockLines (replaceCRLF
        (lit "Book\n- Your Highlight at location 42\nSome text"))).getD 1 []) = none := by
      decide
    rw [hn] at hm
    exact absurd hm (by simp)

/-! ## Lemmas on the de-duplication -/

theorem mem_firstOccurrences (l : List JSString) (x : JSString) :
    x ∈ firstOccurrences l ↔ x ∈ l := by
  induction l with
  | nil => simp [firstOccurrences]
  | cons k ks ih =>
    simp only [firstOccurrences, List.mem_cons, List.mem_filter, ih]
    by_cases hx : x = k
    · simp [hx]
    · simp [hx]

theorem nodup_firstOccurrences (l : List JSString) : (firstOccurrences l).Nodup := by
  induction l with
  | nil => simp [firstOccurrences]
  | cons k ks ih =>
    simp only [firstOccurrences, List.nodup_cons, List.mem_filter]
    exact ⟨by simp, ih.filter _⟩

theorem firstOccurrences_concat (l : List JSString) (a : JSString) :
    firstOccurrences (l ++ [a]) =
      if a ∈ l then firstOccurrences l else firstOccurrences l ++ [a] := by
  induction l with
  | nil => simp [firstOccurrences]
  | cons k ks ih =>
    rw [List.cons_append, firstOccurrences, ih]
    simp only [firstOccurrences, List.mem_cons]
    by_cases hak : a = k
    · subst hak
      by_cases hks : a ∈ ks
      · simp [hks]
      · simp [hks, List.filter_append]
    · by_cases hks : a ∈ ks
      · simp [hks, hak]
      · simp [hks, hak, List.filter_append]

theorem foldl_processBlock (blocks : List JSString) :
    ∀ m : ClipMap, blocks.foldl processBlock m =
      (blocks.filterMap extractHighlight).foldl dedupInsert m := by
  induction blocks with
  | nil => intro m; rfl
  | cons b bs ih =>
    intro m
    cases hb : extractHighlight b with
    | none => simp [List.filterMap_cons, hb, processBlock, ih]
    | some h => simp [List.filterMap_cons, hb, processBlock, ih]

theorem parseClippings_eq (text : JSString) :
    parseClippings text = ((validRecords text).foldl dedupInsert []).map Prod.snd := by
  unfold parseClippings validRecords
  rw [foldl_processBlock]

theorem mapGet_eq_none_iff (m : ClipMap) (k : JSString) :
    mapGet m k = none ↔ k ∉ m.map Prod.fst := by
  induction m with
  | nil => simp [mapGet]
  | cons p rest ih =>
    obtain ⟨k1, v1⟩ := p
    by_cases h : k1 = k
    · simp [mapGet, h]
    · have h1 : ¬ k = k1 := fun e => h e.symm
      simp [mapGet, h, h1, ih]

theorem mapGet_some_mem (m : ClipMap) (k : JSString) (v : Highlight) :
    mapGet m k = some v → (k, v) ∈ m := by
  induction m with
  | nil => simp [mapGet]
  | cons p rest ih =>
    obtain ⟨k1, v1⟩ := p
    by_cases h : k1 = k
    · simp only [mapGet, h, if_true, Option.some.injEq]
      intro hv; subst hv; simp
    · simp only [mapGet, h, if_false]
      intro hv; exact List.mem_cons_of_mem _ (ih hv)

theorem mapSet_of_not_mem (m : ClipMap) (k : JSString) (v : Highlight)
    (h : k ∉ m.map Prod.fst) : mapSet m k v = m ++ [(k, v)] := by
  induction m with
  | nil => simp [mapSet]
  | cons p rest ih =>
    obtain ⟨k1, v1⟩ := p
    simp only [List.map_cons, List.mem_cons, not_or] at h
    have h1 : ¬ k1 = k := fun e => h.1 e.symm
    simp [mapSet, h1, ih h.2]

theorem map_fst_mapSet_of_mem (m : ClipMap) (k : JSString) (v : Highlight)
    (h : k ∈ m.map Prod.fst) : (mapSet m k v).map Prod.fst = m.map Prod.fst := by
  induction m with
  | nil => simp at h
  | cons p rest ih =>
    obtain ⟨k1, v1⟩ := p
    by_cases h1 : k1 = k
    · simp [mapSet, h1]
    · have h2 : k ∈ rest.map Prod.fst := by
        simp only [List.map_cons, List.mem_cons] at h
        rcases h with h | h
        · exact absurd h.symm h1
        · exact h
      simp [mapSet, h1, ih h2]

theorem mem_mapSet (m : ClipMap) (k : JSString) (v : Highlight) (p : JSString × Highlight)
    (hn : (m.map Prod.fst).Nodup) :
    p ∈ mapSet m k v → p = (k, v) ∨ (p ∈ m ∧ p.1 ≠ k) := by
  induction m with
  | nil => simp [mapSet]
  | cons q rest ih =>
    obtain ⟨k1, v1⟩ := q
    simp only [List.map_cons, List.nodup_cons] at hn
    by_cases h1 : k1 = k
    · simp only [mapSet, h1, if_true, List.mem_cons]
      rintro (hp | hp)
      · exact Or.inl hp
      · refine Or.inr ⟨Or.inr hp, ?_⟩
        intro hpk
        apply hn.1
        rw [h1, ← hpk]
        exact List.mem_map_of_mem _ hp
    · simp only [mapSet, h1, if_false, List.mem_cons]
      rintro (hp | hp)
      · exact Or.inr ⟨Or.inl hp, by rw [hp]; exact h1⟩
      · rcases ih hn.2 hp with h | ⟨h, h2⟩
        · exact Or.inl h
        · exact Or.inr ⟨Or.inr h, h2⟩

theorem dedupInv_nodup {m : ClipMap} {rs : List Highlight} (h : DedupInv m rs) :
    (m.map Prod.fst).Nodup := by
  rw [h.order]; exact nodup_firstOccurrences _

theorem dedupInv_mem_keys_iff {m : ClipMap} {rs : List Highlight} (h : DedupInv m rs)
    (k : JSString) : k ∈ m.map Prod.fst ↔ k ∈ rs.map clipKey := by
  rw [h.order, mem_firstOccurrences]

theorem dedupInv_cover {m : ClipMap} {rs : List Highlight} (h : DedupInv m rs)
    (r : Highlight) (hr : r ∈ rs) : clipKey r ∈ m.map Prod.fst :=
  (dedupInv_mem_keys_iff h _).2 (List.mem_map_of_mem _ hr)

theorem value_unique (m : ClipMap) (hn : (m.map Prod.fst).Nodup) (k : JSString)
    (v1 v2 : Highlight) (h1 : (k, v1) ∈ m) (h2 : (k, v2) ∈ m) : v1 = v2 := by
  induction m with
  | nil => simp at h1
  | cons p rest ih =>
    simp only [List.map_cons, List.nodup_cons] at hn
    rcases List.mem_cons.1 h1 with e1 | e1 <;> rcases List.mem_cons.1 h2 with e2 | e2
    · rw [← e2] at e1; exact (Prod.mk.inj e1).2
    · exfalso; apply hn.1; rw [← e1]
      have := List.mem_map_of_mem Prod.fst e2
      exact this
    · exfalso; apply hn.1; rw [← e2]
      have := List.mem_map_of_mem Prod.fst e1
      exact this
    · exact ih hn.2 e1 e2

theorem dedupInv_nil : DedupInv [] [] :=
  ⟨rfl, fun p hp => absurd hp (List.not_mem_nil p)⟩

theorem dedupInv_step (m : ClipMap) (rs : List Highlight) (r : Highlight)
    (h : DedupInv m rs) : DedupInv (dedupInsert m r) (rs ++ [r]) := by
  have hext : ∀ p ∈ m, (clipKey r = p.1 → r.contentLength ≤ p.2.contentLength) →
      p.1 = clipKey p.2 ∧ ∃ pre post, rs ++ [r] = pre ++ p.2 :: post ∧
      (∀ x ∈ pre, clipKey x = p.1 → x.contentLength < p.2.contentLength) ∧
      (∀ x ∈ post, clipKey x = p.1 → x.contentLength ≤ p.2.contentLength) := by
    intro p hp hr
    obtain ⟨hk1, pre, post, hrs, hpre, hpost⟩ := h.entry p hp
    refine ⟨hk1, pre, post ++ [r], by simp [hrs], hpre, ?_⟩
    intro x hx hxk
    rcases List.mem_append.1 hx with hx | hx
    · exact hpost x hx hxk
    · rw [List.mem_singleton] at hx; subst hx; exact hr hxk
  have hnew : (∀ x ∈ rs, clipKey x = clipKey r → x.contentLength < r.contentLength) →
      (clipKey r, r).1 = clipKey (clipKey r, r).2 ∧ ∃ pre post,
        rs ++ [r] = pre ++ (clipKey r, r).2 :: post ∧
      (∀ x ∈ pre, clipKey x = (clipKey r, r).1 →
        x.contentLength < (clipKey r, r).2.contentLength) ∧
      (∀ x ∈ post, clipKey x = (clipKey r, r).1 →
        x.contentLength ≤ (clipKey r, r).2.contentLength) := by
    intro hlt
    exact ⟨rfl, rs, [], rfl, hlt, fun x hx => absurd hx (List.not_mem_nil x)⟩
  unfold dedupInsert
  cases hg : mapGet m (clipKey r) with
  | none =>
    have hk : clipKey r ∉ m.map Prod.fst := (mapGet_eq_none_iff m _).1 hg
    have hk2 : clipKey r ∉ rs.map clipKey := fun hc => hk ((dedupInv_mem_keys_iff h _).2 hc)
    simp only
    rw [mapSet_of_not_mem m _ _ hk]
    constructor
    · simp only [List.map_append, List.map_cons, List.map_nil]
      rw [h.order, firstOccurrences_concat, if_neg hk2]
    · intro p hp
      rcases List.mem_append.1 hp with hp | hp
      · apply hext p hp
        intro hrk
        exfalso; apply hk; rw [hrk]; exact List.mem_map_of_mem Prod.fst hp
      · rw [List.mem_singleton] at hp; subst hp
        apply hnew
        intro x hx hxk
        exfalso; apply hk; rw [← hxk]; exact dedupInv_cover h x hx
  | some e =>
    have he : (clipKey r, e) ∈ m := mapGet_some_mem m _ e hg
    have hkm : clipKey r ∈ m.map Prod.fst := List.mem_map_of_mem Prod.fst he
    have hk2 : clipKey r ∈ rs.map clipKey := (dedupInv_mem_keys_iff h _).1 hkm
    have horder : firstOccurrences ((rs ++ [r]).map clipKey) = m.map Prod.fst := by
      simp only [List.map_append, List.map_cons, List.map_nil]
      rw [firstOccurrences_concat, if_pos hk2, h.order]
    simp only
    split
    · rename_i hlen
      constructor
      · rw [map_fst_mapSet_of_mem m _ _ hkm, horder]
      · intro p hp
        rcases mem_mapSet m _ _ p (dedupInv_nodup h) hp with hp | ⟨hp, hne⟩
        · subst hp
          apply hnew
          intro x hx hxk
          obtain ⟨_, pre, post, hrs, hpre, hpost⟩ := h.entry _ he
          rw [hrs] at hx
          rcases List.mem_append.1 hx with hx | hx
          · have := hpre x hx hxk
            simp only at this hlen ⊢; omega
          · rcases List.mem_cons.1 hx with hx | hx
            · subst hx; exact hlen
            · have := hpost x hx hxk
              simp only at this hlen ⊢; omega
        · apply hext p hp
          intro hrk
          exact absurd hrk.symm hne
    · rename_i hlen
      constructor
      · rw [horder]
      · intro p hp
        apply hext p hp
        intro hrk
        have hpe : p.2 = e := by
          apply value_unique m (dedupInv_nodup h) (clipKey r) p.2 e _ he
          rw [hrk]; exact hp
        rw [hpe]; omega

theorem dedupInv_foldl (rs1 : List Highlight) :
    ∀ (m : ClipMap) (rs : List Highlight), DedupInv m rs →
      DedupInv (rs1.foldl dedupInsert m) (rs ++ rs1) := by
  induction rs1 with
  | nil => intro m rs h; simpa using h
  | cons r rest ih =>
    intro m rs h
    have := ih (dedupInsert m r) (rs ++ [r]) (dedupInv_step m rs r h)
    simpa using this

theorem dedupInv_validRecords (text : JSString) :
    DedupInv ((validRecords text).foldl dedupInsert []) (validRecords text) := by
  have := dedupInv_foldl (validRecords text) [] [] dedupInv_nil
  simpa using this

theorem isRange_of_mem_validRecords (text : JSString) (r : Highlight)
    (hr : r ∈ validRecords text) : IsRange r.location := by
  unfold validRecords at hr
  obtain ⟨b, _, hb⟩ := List.mem_filterMap.1 hr
  exact isRange_location b r hb

theorem append_cons_inj (x : Nat) (t1 l1 t2 l2 : JSString) (h1 : x ∉ l1) (h2 : x ∉ l2)
    (h : t1 ++ x :: l1 = t2 ++ x :: l2) : t1 = t2 ∧ l1 = l2 := by
  rcases List.append_eq_append_iff.1 h with ⟨a, ha, hb⟩ | ⟨c, hc, hd⟩
  · cases a with
    | nil => simp at ha hb; exact ⟨ha.symm, hb⟩
    | cons y a =>
      exfalso; apply h1
      simp only [List.cons_append, List.cons.injEq] at hb
      rw [hb.2]; simp [hb.1]
  · cases c with
    | nil => simp at hc hd; exact ⟨hc, hd.symm⟩
    | cons y c =>
      exfalso; apply h2
      simp only [List.cons_append, List.cons.injEq] at hd
      rw [hd.2]; simp [hd.1]

theorem clipKey_inj (a b : Highlight) (ha : IsRange a.location) (hb : IsRange b.location)
    (h : clipKey a = clipKey b) : a.title = b.title ∧ a.location = b.location :=
  append_cons_inj 124 _ _ _ _ (not_mem_of_isRange ha) (not_mem_of_isRange hb) h

theorem clipKey_eq_of (a b : Highlight) (ht : a.title = b.title)
    (hl : a.location = b.location) : clipKey a = clipKey b := by
  unfold clipKey; rw [ht, hl]

theorem mem_parseClippings_iff (text : JSString) (h : Highlight) :
    h ∈ parseClippings text ↔
      (clipKey h, h) ∈ (validRecords text).foldl dedupInsert [] := by
  rw [parseClippings_eq]
  constructor
  · intro hm
    obtain ⟨p, hp, hph⟩ := List.mem_map.1 hm
    have := ((dedupInv_validRecords text).entry p hp).1
    subst hph
    rw [← this]; exact hp
  · intro hm
    exact List.mem_map.2 ⟨_, hm, rfl⟩

theorem first_longest_unique (K : Highlight → Prop) (pre1 post1 pre2 post2 : List Highlight)
    (a b : Highlight) (h : pre1 ++ a :: post1 = pre2 ++ b :: post2) (ha : K a) (hb : K b)
    (hpre1 : ∀ x ∈ pre1, K x → x.contentLength < a.contentLength)
    (hpost1 : ∀ x ∈ post1, K x → x.contentLength ≤ a.contentLength)
    (hpre2 : ∀ x ∈ pre2, K x → x.contentLength < b.contentLength)
    (hpost2 : ∀ x ∈ post2, K x → x.contentLength ≤ b.contentLength) :
    pre1 = pre2 ∧ a = b ∧ post1 = post2 := by
  rcases List.append_eq_append_iff.1 h with ⟨c, hc, hd⟩ | ⟨c, hc, hd⟩
  · cases c with
    | nil =>
      simp only [List.append_nil, List.nil_append, List.cons.injEq] at hc hd
      exact ⟨hc.symm, hd.1, hd.2⟩
    | cons y c =>
      exfalso
      simp only [List.cons_append, List.cons.injEq] at hd
      have h1 : a ∈ pre2 := by rw [hc, hd.1]; simp
      have h2 : b ∈ post1 := by rw [hd.2]; simp
      have := hpre2 a h1 ha
      have := hpost1 b h2 hb
      omega
  · cases c with
    | nil =>
      simp only [List.append_nil, List.nil_append, List.cons.injEq] at hc hd
      exact ⟨hc, hd.1.symm, hd.2.symm⟩
    | cons y c =>
      exfalso
      simp only [List.cons_append, List.cons.injEq] at hd
      have h1 : b ∈ pre1 := by rw [hc, hd.1]; simp
      have h2 : a ∈ post2 := by rw [hd.2]; simp
      have := hpre1 b h1 hb
      have := hpost2 a h2 ha
      omega

theorem maxLength_eq (l : List Highlight) (h : Highlight) (hm : h ∈ l)
    (hle : ∀ x ∈ l, x.contentLength ≤ h.contentLength) : maxLength l = h.contentLength := by
  unfold maxLength
  apply le_antisymm
  · clear hm
    induction l with
    | nil => simp
    | cons a l ih =>
      simp only [List.map_cons, List.foldr_cons]
      exact max_le (hle a (List.mem_cons_self _ _))
        (ih (fun x hx => hle x (List.mem_cons_of_mem _ hx)))
  · clear hle
    induction l with
    | nil => simp at hm
    | cons a l ih =>
      simp only [List.map_cons, List.foldr_cons]
      rcases List.mem_cons.1 hm with e | e
      · subst e; exact le_max_left _ _
      · exact le_trans (ih e) (le_max_right _ _)

/-- The record that is first among the longest of its key is the value of the key. -/
theorem survivor_of_first_longest (m : ClipMap) (rs pre post : List Highlight)
    (r h : Highlight) (inv : DedupInv m rs) (hd : rs = pre ++ r :: post)
    (hpre : ∀ x ∈ pre, clipKey x = clipKey r → x.contentLength < r.contentLength)
    (hpost : ∀ x ∈ post, clipKey x = clipKey r → x.contentLength ≤ r.contentLength)
    (hm : (clipKey r, h) ∈ m) : h = r := by
  obtain ⟨hk, pre1, post1, hrs, hpre1, hpost1⟩ := inv.entry _ hm
  simp only at hk hpre1 hpost1
  rw [hd] at hrs
  exact ((first_longest_unique (fun x => clipKey x = clipKey r) _ _ _ _ _ _ hrs rfl hk.symm
    hpre hpost hpre1 hpost1).2.1).symm

/-! ## C2, C3, C4: the de-duplication laws -/

/-- C2. For every valid block record `r` of the text, `parseClippings` returns a highlight
with the title and location of `r`; it is the only returned highlight with this title and
location, it is the record of a valid block, and its `contentLength` is the maximum of the
content lengths of the valid blocks with this title and location. The order of the blocks
plays no part. -/
theorem parseClippings_longest (text : JSString) (r : Highlight)
    (hr : r ∈ validRecords text) :
    ∃ h ∈ parseClippings text, h.title = r.title ∧ h.location = r.location ∧
      (∀ h1 ∈ parseClippings text, h1.title = r.title → h1.location = r.location → h1 = h) ∧
      h ∈ validRecords text ∧
      h.contentLength = maxLength ((validRecords text).filter
        (fun x => x.title = r.title ∧ x.location = r.location)) := by
  have inv := dedupInv_validRecords text
  obtain ⟨p, hp, hpk⟩ := List.mem_map.1 (dedupInv_cover inv r hr)
  obtain ⟨hk, pre, post, hrs, hpre, hpost⟩ := inv.entry p hp
  have hmem : p.2 ∈ validRecords text := by rw [hrs]; simp
  have hkey : clipKey p.2 = clipKey r := by rw [← hk, hpk]
  have htl := clipKey_inj p.2 r (isRange_of_mem_validRecords text _ hmem)
    (isRange_of_mem_validRecords text _ hr) hkey
  refine ⟨p.2, ?_, htl.1, htl.2, ?_, hmem, ?_⟩
  · rw [parseClippings_eq]; exact List.mem_map_of_mem Prod.snd hp
  · intro h1 hh1 ht hl
    have h1m := (mem_parseClippings_iff text h1).1 hh1
    have hk1 : clipKey h1 = p.1 := by rw [hk, hkey]; exact clipKey_eq_of h1 r ht hl
    rw [hk1] at h1m
    exact value_unique _ (dedupInv_nodup inv) p.1 h1 p.2 h1m hp
  · symm
    apply maxLength_eq
    · simp only [List.mem_filter, decide_eq_true_eq]
      exact ⟨hmem, htl⟩
    · intro x hx
      simp only [List.mem_filter, decide_eq_true_eq] at hx
      have hxk : clipKey x = p.1 := by rw [hk, hkey]; exact clipKey_eq_of x r hx.2.1 hx.2.2
      have hx1 := hx.1
      rw [hrs] at hx1
      rcases List.mem_append.1 hx1 with hx1 | hx1
      · exact le_of_lt (hpre x hx1 hxk)
      · rcases List.mem_cons.1 hx1 with hx1 | hx1
        · rw [hx1]
        · exact hpost x hx1 hxk

/-- C2 on two blocks with the same key and content lengths 5 and 10: the highlight
returned for the key has length 10. -/
theorem parseClippings_longest_witness :
    (⟨lit "Book", lit "Ann", lit "1-2", lit "location 1-2", lit "abcde", 5⟩ : Highlight) ∈
        validRecords dupText ∧
    ∃ h ∈ parseClippings dupText, h.title = lit "Book" ∧ h.location = lit "1-2" ∧
      h.contentLength = 10 := by
  have hr : (⟨lit "Book", lit "Ann", lit "1-2", lit "location 1-2", lit "abcde", 5⟩ :
      Highlight) ∈ validRecords dupText := by decide
  refine ⟨hr, ?_⟩
  obtain ⟨h, hh, ht, hl, _, _, hmax⟩ := parseClippings_longest dupText _ hr
  refine ⟨h, hh, ht, hl, ?_⟩
  rw [hmax]
  decide

/-- C3. When the record `r` of a valid block is the first, in input order, among the records
of maximal content length with its title and location (every earlier block with this key is
strictly shorter, no later one is longer), the surviving highlight for the key is `r`
itself, with its `metaLine`, `author` and `content`: `r` is returned, and every returned
highlight with this title and location equals `r`. -/
theorem parseClippings_first_longest (text : JSString) (pre post : List Highlight)
    (r : Highlight) (hd : validRecords text = pre ++ r :: post)
    (hpre : ∀ x ∈ pre, x.title = r.title → x.location = r.location →
      x.contentLength < r.contentLength)
    (hpost : ∀ x ∈ post, x.title = r.title → x.location = r.location →
      x.contentLength ≤ r.contentLength) :
    r ∈ parseClippings text ∧
      ∀ h ∈ parseClippings text, h.title = r.title → h.location = r.location → h = r := by
  have inv := dedupInv_validRecords text
  have hr : r ∈ validRecords text := by rw [hd]; simp
  have hrr := isRange_of_mem_validRecords text r hr
  have hsame : ∀ x ∈ validRecords text, clipKey x = clipKey r →
      x.title = r.title ∧ x.location = r.location := fun x hx hxk =>
    clipKey_inj x r (isRange_of_mem_validRecords text x hx) hrr hxk
  have hsub1 : ∀ x ∈ pre, x ∈ validRecords text := fun x hx => by rw [hd]; simp [hx]
  have hsub2 : ∀ x ∈ post, x ∈ validRecords text := fun x hx => by rw [hd]; simp [hx]
  have key : ∀ h, (clipKey r, h) ∈ (validRecords text).foldl dedupInsert [] → h = r :=
    fun h hm => survivor_of_first_longest _ _ pre post r h inv hd
      (fun x hx hxk => hpre x hx (hsame x (hsub1 x hx) hxk).1 (hsame x (hsub1 x hx) hxk).2)
      (fun x hx hxk => hpost x hx (hsame x (hsub2 x hx) hxk).1 (hsame x (hsub2 x hx) hxk).2)
      hm
  obtain ⟨p, hp, hpk⟩ := List.mem_map.1 (dedupInv_cover inv r hr)
  have hp2 : (clipKey r, p.2) ∈ (validRecords text).foldl dedupInsert [] := by
    rw [← hpk]; exact hp
  constructor
  · rw [parseClippings_eq, ← key p.2 hp2]
    exact List.mem_map_of_mem Prod.snd hp
  · intro h hh ht hl
    apply key
    rw [← clipKey_eq_of h r ht hl]
    exact (mem_parseClippings_iff text h).1 hh

/-- C3 on two blocks with the same key and contents of equal length: the record of the first
block (author `Ann`, meta line of Monday) is the one returned. -/
theorem parseClippings_first_longest_witness :
    validRecords tieText =
      [] ++ ⟨lit "Book", lit "Ann", lit "1-2", lit "location 1-2 | Monday", lit "abc", 3⟩ ::
        [⟨lit "Book", lit "Bob", lit "1-2", lit "location 1-2 | Friday", lit "xyz", 3⟩] ∧
    parseClippings tieText =
      [⟨lit "Book", lit "Ann", lit "1-2", lit "location 1-2 | Monday", lit "abc", 3⟩] ∧
    ∀ h ∈ parseClippings tieText, h.title = lit "Book" → h.location = lit "1-2" →
      h = ⟨lit "Book", lit "Ann", lit "1-2", lit "location 1-2 | Monday", lit "abc", 3⟩ := by
  have hd : validRecords tieText =
      [] ++ ⟨lit "Book", lit "Ann", lit "1-2", lit "location 1-2 | Monday", lit "abc", 3⟩ ::
        [⟨lit "Book", lit "Bob", lit "1-2", lit "location 1-2 | Friday", lit "xyz", 3⟩] := by
    decide
  exact ⟨hd, by decide,
    (parseClippings_first_longest tieText _ _ _ hd (by simp) (by simp)).2⟩

/-- C4. The list returned by `parseClippings` holds no two highlights with the same title
and the same location, and its length is the number of distinct keys `title|location` among
the valid blocks of the text. -/
theorem parseClippings_distinct_keys (text : JSString) :
    (parseClippings text).Pairwise
        (fun a b => ¬ (a.title = b.title ∧ a.location = b.location)) ∧
    (parseClippings text).length = ((validRecords text).map clipKey).toFinset.card := by
  have inv := dedupInv_validRecords text
  constructor
  · rw [parseClippings_eq, List.pairwise_map]
    have hn := dedupInv_nodup inv
    rw [List.Nodup, List.pairwise_map] at hn
    refine hn.imp_of_mem ?_
    intro a b ha hb hab hsame
    apply hab
    rw [(inv.entry a ha).1, (inv.entry b hb).1]
    exact clipKey_eq_of _ _ hsame.1 hsame.2
  · have h1 : (parseClippings text).length = (firstOccurrences
        ((validRecords text).map clipKey)).length := by
      rw [parseClippings_eq, ← inv.order]; simp
    rw [h1, ← List.toFinset_card_of_nodup (nodup_firstOccurrences _)]
    congr 1
    ext k
    simp only [List.mem_toFinset]
    exact mem_firstOccurrences _ k

/-! ## Lemmas on `groupClippings` -/

theorem ownGet_eq_none_iff (o : JSObject) (k : JSString) :
    ownGet o k = none ↔ k ∉ o.map Prod.fst := by
  induction o with
  | nil => simp [ownGet]
  | cons p rest ih =>
    obtain ⟨k1, v1⟩ := p
    by_cases h : k1 = k
    · simp [ownGet, h]
    · have h1 : ¬ k = k1 := fun e => h e.symm
      simp [ownGet, h, h1, ih]

theorem ownGet_some_mem (o : JSObject) (k : JSString) (g : BookGroup) :
    ownGet o k = some g → (k, g) ∈ o := by
  induction o with
  | nil => simp [ownGet]
  | cons p rest ih =>
    obtain ⟨k1, v1⟩ := p
    by_cases h : k1 = k
    · simp only [ownGet, h, if_true, Option.some.injEq]
      intro hv; subst hv; simp
    · simp only [ownGet, h, if_false]
      intro hv; exact List.mem_cons_of_mem _ (ih hv)

theorem ownGet_append_self (o : JSObject) (k : JSString) (g : BookGroup)
    (h : ownGet o k = none) : ownGet (o ++ [(k, g)]) k = some g := by
  induction o with
  | nil => simp [ownGet]
  | cons p rest ih =>
    obtain ⟨k1, v1⟩ := p
    by_cases h1 : k1 = k
    · simp [ownGet, h1] at h
    · simp only [ownGet, h1, if_false] at h
      simp [ownGet, h1, ih h]

theorem ownSet_append_self (o : JSObject) (k : JSString) (g g1 : BookGroup)
    (h : k ∉ o.map Prod.fst) : ownSet (o ++ [(k, g)]) k g1 = o ++ [(k, g1)] := by
  induction o with
  | nil => simp [ownSet]
  | cons p rest ih =>
    obtain ⟨k1, v1⟩ := p
    simp only [List.map_cons, List.mem_cons, not_or] at h
    have h1 : ¬ k1 = k := fun e => h.1 e.symm
    simp [ownSet, h1, ih h.2]

theorem map_fst_ownSet (o : JSObject) (k : JSString) (g : BookGroup) :
    (ownSet o k g).map Prod.fst = o.map Prod.fst := by
  induction o with
  | nil => simp [ownSet]
  | cons p rest ih =>
    obtain ⟨k1, v1⟩ := p
    by_cases h1 : k1 = k
    · simp [ownSet, h1]
    · simp [ownSet, h1, ih]

theorem mem_ownSet (o : JSObject) (k : JSString) (g : BookGroup) (p : JSString × BookGroup)
    (hn : (o.map Prod.fst).Nodup) :
    p ∈ ownSet o k g → p = (k, g) ∨ (p ∈ o ∧ p.1 ≠ k) := by
  induction o with
  | nil => simp [ownSet]
  | cons q rest ih =>
    obtain ⟨k1, v1⟩ := q
    simp only [List.map_cons, List.nodup_cons] at hn
    by_cases h1 : k1 = k
    · simp only [ownSet, h1, if_true, List.mem_cons]
      rintro (hp | hp)
      · exact Or.inl hp
      · refine Or.inr ⟨Or.inr hp, ?_⟩
        intro hpk
        apply hn.1
        rw [h1, ← hpk]
        exact List.mem_map_of_mem _ hp
    · simp only [ownSet, h1, if_false, List.mem_cons]
      rintro (hp | hp)
      · exact Or.inr ⟨Or.inl hp, by rw [hp]; exact h1⟩
      · rcases ih hn.2 hp with h | ⟨h, h2⟩
        · exact Or.inl h
        · exact Or.inr ⟨Or.inr h, h2⟩

/-- The three cases of one iteration of the first loop. -/
theorem addClip_eq (o : JSObject) (clip : Highlight) :
    addClip o clip =
      match ownGet o clip.title with
      | some g => some (ownSet o clip.title { g with clips := g.clips ++ [clip] })
      | none =>
        if clip.title ∈ objectPrototypeKeys then none
        else some (o ++ [(clip.title, { author := clip.author, clips := [clip] })]) := by
  unfold addClip
  cases hg : ownGet o clip.title with
  | some g => simp [getProp, hg]
  | none =>
    by_cases hp : clip.title ∈ objectPrototypeKeys
    · simp [getProp, hg, hp]
    · have hk := (ownGet_eq_none_iff o _).1 hg
      simp [getProp, hg, hp, ownGet_append_self o _ _ hg, ownSet_append_self o _ _ _ hk]

theorem groupInv_nodup {o : JSObject} {done : List Highlight} (h : GroupInv o done) :
    (o.map Prod.fst).Nodup := by
  rw [h.order]; exact nodup_firstOccurrences _

theorem groupInv_nil : GroupInv [] [] :=
  ⟨rfl, fun p hp => absurd hp (List.not_mem_nil p)⟩

theorem groupInv_step (o o1 : JSObject) (done : List Highlight) (c : Highlight)
    (h : GroupInv o done) (hc : addClip o c = some o1) : GroupInv o1 (done ++ [c]) := by
  have hold : ∀ p ∈ o, p.1 ≠ c.title →
      p.2.clips = (done ++ [c]).filter (fun x => x.title = p.1) ∧
      ∃ c0 rest, p.2.clips = c0 :: rest ∧ p.2.author = c0.author := by
    intro p hp hne
    obtain ⟨h1, h2⟩ := h.entry p hp
    refine ⟨?_, h2⟩
    have : ¬ c.title = p.1 := fun e => hne e.symm
    simp [List.filter_append, h1, this]
  rw [addClip_eq] at hc
  cases hg : ownGet o c.title with
  | some g =>
    rw [hg] at hc
    simp only [Option.some.injEq] at hc
    subst hc
    have hmem := ownGet_some_mem o _ g hg
    have hk : c.title ∈ (o.map Prod.fst) := List.mem_map_of_mem Prod.fst hmem
    have hk2 : c.title ∈ done.map (fun x => x.title) := by
      rw [h.order, mem_firstOccurrences] at hk; exact hk
    constructor
    · simp only [List.map_append, List.map_cons, List.map_nil]
      rw [map_fst_ownSet, firstOccurrences_concat, if_pos hk2, h.order]
    · intro p hp
      rcases mem_ownSet o _ _ p (groupInv_nodup h) hp with hp | ⟨hp, hne⟩
      · subst hp
        obtain ⟨h1, c0, rest, h2, h3⟩ := h.entry _ hmem
        simp only at h1 h2 h3 ⊢
        refine ⟨by simp [List.filter_append, h1], c0, rest ++ [c], by simp [h2], h3⟩
      · exact hold p hp hne
  | none =>
    simp only [hg] at hc
    have hk := (ownGet_eq_none_iff o _).1 hg
    have hk2 : c.title ∉ done.map (fun x => x.title) := by
      rw [h.order, mem_firstOccurrences] at hk; exact hk
    split at hc
    · exact absurd hc (by simp)
    · simp only [Option.some.injEq] at hc
      subst hc
      constructor
      · simp only [List.map_append, List.map_cons, List.map_nil]
        rw [firstOccurrences_concat, if_neg hk2, h.order]
      · intro p hp
        rcases List.mem_append.1 hp with hp | hp
        · apply hold p hp
          intro e
          apply hk; rw [← e]; exact List.mem_map_of_mem Prod.fst hp
        · rw [List.mem_singleton] at hp
          subst hp
          have hnone : done.filter (fun x => decide (x.title = c.title)) = [] := by
            rw [List.filter_eq_nil_iff]
            intro x hx hxt
            apply hk2
            simp only [decide_eq_true_eq] at hxt
            rw [← hxt]
            exact List.mem_map_of_mem (fun x => x.title) hx
          exact ⟨by simp [List.filter_append, hnone], c, [], rfl, rfl⟩

theorem groupInv_addClips (cs : List Highlight) :
    ∀ (o o1 : JSObject) (done : List Highlight), GroupInv o done →
      addClips o cs = some o1 → GroupInv o1 (done ++ cs) := by
  induction cs with
  | nil =>
    intro o o1 done h hc
    simp only [addClips, Option.some.injEq] at hc
    subst hc; simpa using h
  | cons c rest ih =>
    intro o o1 done h hc
    rw [addClips] at hc
    cases hs : addClip o c with
    | none => rw [hs] at hc; exact absurd hc (by simp)
    | some o2 =>
      rw [hs] at hc
      have := ih o2 o1 (done ++ [c]) (groupInv_step o o2 done c h hs) hc
      simpa using this

/-- What the second loop does to the groups. -/
theorem sortGroups_mem (o : JSObject) :
    ∀ o1, sortGroups o = some o1 → ∀ q ∈ o1, ∃ g, (q.1, g) ∈ o ∧ q.2.author = g.author ∧
      sortClips g.clips = some q.2.clips := by
  induction o with
  | nil =>
    intro o1 h q hq
    simp only [sortGroups, Option.some.injEq] at h
    subst h; exact absurd hq (List.not_mem_nil q)
  | cons p rest ih =>
    intro o1 h q hq
    obtain ⟨k, g⟩ := p
    rw [sortGroups] at h
    cases hs : sortClips g.clips with
    | none => rw [hs] at h; exact absurd h (by simp)
    | some cs =>
      cases hr : sortGroups rest with
      | none => rw [hs, hr] at h; exact absurd h (by simp)
      | some rest1 =>
        rw [hs, hr] at h
        simp only [Option.some.injEq] at h
        subst h
        rcases List.mem_cons.1 hq with hq | hq
        · subst hq
          exact ⟨g, List.mem_cons_self _ _, rfl, hs⟩
        · obtain ⟨g1, hg1, ha, hc⟩ := ih rest1 hr q hq
          exact ⟨g1, List.mem_cons_of_mem _ hg1, ha, hc⟩

/-- The result of the sort: a permutation in non-decreasing order of `getLocNum`, all of
whose locations have a digit when the comparator was called. -/
theorem sortClips_some (cs cs1 : List Highlight) (h : sortClips cs = some cs1) :
    cs1.Perm cs ∧ cs1.Sorted locLE := by
  unfold sortClips at h
  split at h
  · rename_i hlen
    simp only [Option.some.injEq] at h
    subst h
    refine ⟨List.Perm.refl _, ?_⟩
    match cs, hlen with
    | [], _ => exact List.sorted_nil
    | [a], _ => exact List.sorted_singleton a
  · split at h
    · simp only [Option.some.injEq] at h
      subst h
      exact ⟨List.perm_insertionSort _ _, List.sorted_insertionSort _ _⟩
    · exact absurd h (by simp)

theorem groupClippings_some (clips : List Highlight) (o : JSObject)
    (h : groupClippings clips = some o) :
    ∃ o0, GroupInv o0 clips ∧ sortGroups o0 = some o := by
  unfold groupClippings at h
  cases ha : addClips [] clips with
  | none => rw [ha] at h; exact absurd h (by simp)
  | some o0 =>
    rw [ha] at h
    have := groupInv_addClips clips [] o0 [] groupInv_nil ha
    exact ⟨o0, by simpa using this, h⟩

theorem mem_validRecords_of_mem_parseClippings (text : JSString) (h : Highlight)
    (hm : h ∈ parseClippings text) : h ∈ validRecords text := by
  obtain ⟨_, pre, post, hrs, _⟩ :=
    (dedupInv_validRecords text).entry _ ((mem_parseClippings_iff text h).1 hm)
  rw [hrs]; simp

theorem getLocNum_of_isRange (loc : JSString) (h : IsRange loc) :
    getLocNum loc = some (toNumber (firstNumber loc)) := by
  obtain ⟨d1, d2, h1, _, hd1, _, rfl⟩ := h
  cases d1 with
  | nil => exact absurd rfl h1
  | cons a d1 =>
    have ha : isDigit a = true := hd1 a (List.mem_cons_self _ _)
    simp [getLocNum, firstNumber, firstDigitRun, ha, parseInt]

theorem toNumber_of_lt (n : Nat) (h : n < 2 ^ 53) : toNumber n = n := by
  unfold toNumber
  rw [if_pos h]

/-! ## C5: the order of the clips of a book -/

/-- C5, as stated, fails on `bigLocText`: the first numbers 9007199254740993 and
9007199254740992 of the two locations are both read as the Number 9007199254740992, the
comparator returns 0 and the clips stay in input order, the greater integer first. -/
theorem groupClippings_sorted_counterexample :
    ¬ ∀ o, groupClippings (parseClippings bigLocText) = some o →
      ∀ p ∈ o, p.2.clips.Chain'
        (fun a b => firstNumber a.location ≤ firstNumber b.location) := by
  intro hall
  have hg : groupClippings (parseClippings bigLocText) = some
      [(lit "Book", ⟨lit "Ann",
        [⟨lit "Book", lit "Ann", lit "9007199254740993-9007199254740995",
            lit "location 9007199254740993-9007199254740995", lit "first", 5⟩,
         ⟨lit "Book", lit "Ann", lit "9007199254740992-9007199254740994",
            lit "location 9007199254740992-9007199254740994", lit "second", 6⟩]⟩)] := by
    decide
  have := hall _ hg _ (List.mem_singleton.2 rfl)
  rw [List.chain'_pair] at this
  revert this
  decide

/-- C5, amended. For every text and every group of `groupClippings(parseClippings(text))`,
for every pair of adjacent clips of the group the Number that `parseInt` gives for the first
digit run of the earlier location is at most that of the later one. The Number of a digit
run below 2^53 is its integer value, so for such runs the integer values are in order. -/
theorem groupClippings_sorted (text : JSString) (o : JSObject)
    (h : groupClippings (parseClippings text) = some o) :
    ∀ p ∈ o, p.2.clips.Chain' (fun a b =>
      getLocNum a.location = some (toNumber (firstNumber a.location)) ∧
      getLocNum b.location = some (toNumber (firstNumber b.location)) ∧
      toNumber (firstNumber a.location) ≤ toNumber (firstNumber b.location) ∧
      (firstNumber a.location < 2 ^ 53 → firstNumber b.location < 2 ^ 53 →
        firstNumber a.location ≤ firstNumber b.location)) := by
  intro p hp
  obtain ⟨o0, hinv, hsort⟩ := groupClippings_some _ _ h
  obtain ⟨g0, hg0, _, hsc⟩ := sortGroups_mem o0 o hsort p hp
  obtain ⟨hperm, hsorted⟩ := sortClips_some _ _ hsc
  have hall : ∀ a ∈ p.2.clips, IsRange a.location := by
    intro a ha
    have h1 : a ∈ g0.clips := hperm.mem_iff.1 ha
    rw [(hinv.entry _ hg0).1] at h1
    exact isRange_of_mem_validRecords text a
      (mem_validRecords_of_mem_parseClippings text a (List.mem_filter.1 h1).1)
  apply List.Pairwise.chain'
  refine List.Pairwise.imp_of_mem ?_ hsorted
  intro a b ha hb hab
  have ha1 := getLocNum_of_isRange _ (hall a ha)
  have hb1 := getLocNum_of_isRange _ (hall b hb)
  have hle : toNumber (firstNumber a.location) ≤ toNumber (firstNumber b.location) := by
    unfold locLE at hab
    rw [ha1, hb1] at hab
    simpa using hab
  refine ⟨ha1, hb1, hle, ?_⟩
  intro h1 h2
  rw [toNumber_of_lt _ h1, toNumber_of_lt _ h2] at hle
  exact hle

/-- C5, amended, on the end-to-end input of the specification: the grouping succeeds and
the clips of its group are in order. -/
theorem groupClippings_sorted_witness :
    ∃ o, groupClippings (parseClippings e2eText) = some o ∧
      ∀ p ∈ o, p.2.clips.Chain' (fun a b =>
        getLocNum a.location = some (toNumber (firstNumber a.location)) ∧
        getLocNum b.location = some (toNumber (firstNumber b.location)) ∧
        toNumber (firstNumber a.location) ≤ toNumber (firstNumber b.location) ∧
        (firstNumber a.location < 2 ^ 53 → firstNumber b.location < 2 ^ 53 →
          firstNumber a.location ≤ firstNumber b.location)) :=
  ⟨[(lit "Book One", ⟨lit "Jane Doe",
      [⟨lit "Book One", lit "Jane Doe", lit "1-3",
          lit "Your Highlight at location 1-3 | Added on ...",
          lit "Second highlight text", 21⟩,
       ⟨lit "Book One", lit "Jane Doe", lit "10-12",
          lit "Your Highlight at location 10-12 | Added on ...",
          lit "First highlight text", 20⟩]⟩)],
    by decide, groupClippings_sorted e2eText _ (by decide)⟩

/-- Where a key stands among the first occurrences, it has not occurred before, and what
occurred before stands before it. -/
theorem firstOccurrences_eq_append (l : List JSString) :
    ∀ (K1 : List JSString) (k : JSString) (K2 : List JSString),
      firstOccurrences l = K1 ++ k :: K2 →
      ∃ l1 l2, l = l1 ++ k :: l2 ∧ k ∉ l1 ∧ ∀ x ∈ l1, x ∈ K1 := by
  induction l using List.reverseRecOn with
  | nil => intro K1 k K2 h; simp [firstOccurrences] at h
  | append_singleton l a ih =>
    intro K1 k K2 h
    rw [firstOccurrences_concat] at h
    by_cases ha : a ∈ l
    · rw [if_pos ha] at h
      obtain ⟨l1, l2, hl, hk, hsub⟩ := ih K1 k K2 h
      exact ⟨l1, l2 ++ [a], by simp [hl], hk, hsub⟩
    · rw [if_neg ha] at h
      rcases List.eq_nil_or_concat K2 with hK2 | ⟨K3, b, hK2⟩
      · subst hK2
        have h1 : firstOccurrences l ++ [a] = K1 ++ [k] := h
        obtain ⟨h2, h3⟩ := List.append_inj' h1 rfl
        simp only [List.cons.injEq, and_true] at h3
        subst h3
        refine ⟨l, [], rfl, ha, ?_⟩
        intro x hx
        rw [← h2]; exact (mem_firstOccurrences l x).2 hx
      · subst hK2
        have h1 : firstOccurrences l ++ [a] = (K1 ++ k :: K3) ++ [b] := by
          rw [h]; simp
        obtain ⟨h2, _⟩ := List.append_inj' h1 rfl
        obtain ⟨l1, l2, hl, hk, hsub⟩ := ih K1 k K3 h2
        exact ⟨l1, l2 ++ [a], by simp [hl], hk, hsub⟩

/-! ## C6: the author of a group -/

/-- C6, as stated, fails on `authorText`: the first block with the title `Book` has the
author `Ann`, but the longer second block with the same location replaces its record, and
the author of the group is `Bob`. -/
theorem groupClippings_author_counterexample :
    validRecords authorText =
      [⟨lit "Book", lit "Ann", lit "1-2", lit "location 1-2", lit "abc", 3⟩,
       ⟨lit "Book", lit "Bob", lit "1-2", lit "location 1-2", lit "abcdef", 6⟩] ∧
    groupClippings (parseClippings authorText) = some
      [(lit "Book", ⟨lit "Bob",
        [⟨lit "Book", lit "Bob", lit "1-2", lit "location 1-2", lit "abcdef", 6⟩]⟩)] ∧
    lit "Bob" ≠ lit "Ann" := by
  decide

/-- C6, amended. For every text and every title `t` with a group in
`groupClippings(parseClippings(text))`, let `r1` be the first valid block with the title
`t`. The author of the group is the author of the highlight that `parseClippings` returns
for the title and location of `r1`; it is the author of `r1` itself when no later block with
this title and location has a longer content than `r1`. -/
theorem groupClippings_author (text : JSString) (o : JSObject) (t : JSString)
    (g : BookGroup) (h : groupClippings (parseClippings text) = some o)
    (hm : (t, g) ∈ o) :
    ∃ pre r1 post hl, validRecords text = pre ++ r1 :: post ∧ r1.title = t ∧
      (∀ x ∈ pre, x.title ≠ t) ∧
      hl ∈ parseClippings text ∧ hl.title = t ∧ hl.location = r1.location ∧
      g.author = hl.author ∧
      ((∀ x ∈ post, x.title = t → x.location = r1.location →
          x.contentLength ≤ r1.contentLength) → g.author = r1.author) := by
  have inv := dedupInv_validRecords text
  obtain ⟨o0, hinv, hsort⟩ := groupClippings_some _ _ h
  obtain ⟨g0, hg0, hauth, _⟩ := sortGroups_mem o0 o hsort (t, g) hm
  obtain ⟨hclips, c0, rest, hc0, hauthor⟩ := hinv.entry (t, g0) hg0
  simp only at hg0 hauth hclips hc0 hauthor
  rw [hc0] at hclips
  obtain ⟨A, B, hAB, hA, hc0t, _⟩ := List.filter_eq_cons_iff.1 hclips.symm
  simp only [decide_eq_true_eq] at hA hc0t
  rw [parseClippings_eq] at hAB
  obtain ⟨M1, M2, hM, hM1, hM2⟩ := List.map_eq_append_iff.1 hAB
  obtain ⟨e, M3, hM3, he, _⟩ := List.map_eq_cons_iff.1 hM2
  subst hM3
  have hem : e ∈ (validRecords text).foldl dedupInsert [] := by rw [hM]; simp
  have hek : e.1 = clipKey c0 := by rw [← he]; exact (inv.entry e hem).1
  have hord := inv.order
  rw [hM] at hord
  simp only [List.map_append, List.map_cons] at hord
  obtain ⟨l1, l2, hl, hk, hsub⟩ := firstOccurrences_eq_append _ _ _ _ hord.symm
  obtain ⟨R1, R2, hR, hR1, hR2⟩ := List.map_eq_append_iff.1 hl
  obtain ⟨r0, R3, hR3, hr0, _⟩ := List.map_eq_cons_iff.1 hR2
  subst hR3
  have hc0p : c0 ∈ parseClippings text := by
    rw [parseClippings_eq, hAB]; simp
  have hc0v := mem_validRecords_of_mem_parseClippings text c0 hc0p
  have hr0v : r0 ∈ validRecords text := by rw [hR]; simp
  have hrc := clipKey_inj r0 c0 (isRange_of_mem_validRecords text _ hr0v)
    (isRange_of_mem_validRecords text _ hc0v) (by rw [hr0, hek])
  have hpre : ∀ x ∈ R1, x.title ≠ t := by
    intro x hx hxt
    have hxv : x ∈ validRecords text := by rw [hR]; simp [hx]
    have hxk : clipKey x ∈ M1.map Prod.fst :=
      hsub _ (by rw [← hR1]; exact List.mem_map_of_mem clipKey hx)
    obtain ⟨q, hq, hqk⟩ := List.mem_map.1 hxk
    have hqm : q ∈ (validRecords text).foldl dedupInsert [] := by rw [hM]; simp [hq]
    have hq2 : q.2 ∈ parseClippings text := by
      rw [parseClippings_eq]; exact List.mem_map_of_mem Prod.snd hqm
    have hq2v := mem_validRecords_of_mem_parseClippings text q.2 hq2
    have hxq := clipKey_inj x q.2 (isRange_of_mem_validRecords text _ hxv)
      (isRange_of_mem_validRecords text _ hq2v) (by rw [← (inv.entry q hqm).1, hqk])
    apply hA q.2 (by rw [← hM1]; exact List.mem_map_of_mem Prod.snd hq)
    rw [← hxq.1, hxt]
  refine ⟨R1, r0, R3, c0, hR, by rw [hrc.1, hc0t], hpre, hc0p, hc0t, hrc.2.symm,
    by rw [hauth, hauthor], ?_⟩
  intro hpost
  have hr0t : r0.title = t := by rw [hrc.1, hc0t]
  have hsame : ∀ x ∈ validRecords text, clipKey x = clipKey r0 →
      x.title = r0.title ∧ x.location = r0.location := fun x hx hxk =>
    clipKey_inj x r0 (isRange_of_mem_validRecords text x hx)
      (isRange_of_mem_validRecords text _ hr0v) hxk
  have hsurv : c0 = r0 := by
    apply survivor_of_first_longest _ _ R1 R3 r0 c0 inv hR
    · intro x hx hxk
      have hxv : x ∈ validRecords text := by rw [hR]; simp [hx]
      exact absurd ((hsame x hxv hxk).1.trans hr0t) (hpre x hx)
    · intro x hx hxk
      have hxv : x ∈ validRecords text := by rw [hR]; simp [hx]
      exact hpost x hx ((hsame x hxv hxk).1.trans hr0t) (hsame x hxv hxk).2
    · have heq : (clipKey r0, c0) = e := by rw [hr0, ← he]
      rw [heq]; exact hem
  rw [hauth, hauthor, hsurv]

/-- C6, amended, on `tieText`: two blocks of one title with the authors `Ann` and `Bob` and
contents of equal length; the group has the author of the first block. -/
theorem groupClippings_author_witness :
    groupClippings (parseClippings tieText) = some
      [(lit "Book", ⟨lit "Ann",
        [⟨lit "Book", lit "Ann", lit "1-2", lit "location 1-2 | Monday", lit "abc", 3⟩]⟩)] ∧
    ∃ pre r1 post hl, validRecords tieText = pre ++ r1 :: post ∧ r1.title = lit "Book" ∧
      (∀ x ∈ pre, x.title ≠ lit "Book") ∧
      hl ∈ parseClippings tieText ∧ hl.title = lit "Book" ∧ hl.location = r1.location ∧
      lit "Ann" = hl.author ∧
      ((∀ x ∈ post, x.title = lit "Book" → x.location = r1.location →
          x.contentLength ≤ r1.contentLength) → lit "Ann" = r1.author) :=
  ⟨by decide, groupClippings_author tieText
    [(lit "Book", ⟨lit "Ann",
      [⟨lit "Book", lit "Ann", lit "1-2", lit "location 1-2 | Monday", lit "abc", 3⟩]⟩)]
    (lit "Book")
    ⟨lit "Ann",
      [⟨lit "Book", lit "Ann", lit "1-2", lit "location 1-2 | Monday", lit "abc", 3⟩]⟩
    (by decide) (List.mem_singleton.2 rfl)⟩

/-! ## C7, C8: the plain object of `groupClippings` -/

set_option maxRecDepth 8000 in
/-- C7 fails on the highlights of `duneText`, by a defect of the code: `groupedByBook` is a
plain object, so `for...in` (in `formatAsMarkdown` too) enumerates the array-index key
`1984` before the key `Dune`, although `Dune` comes first in the list of highlights. -/
theorem groupClippings_order_1984 :
    (parseClippings duneText).map (fun c => c.title) = [lit "Dune", lit "1984"] ∧
    (groupClippings (parseClippings duneText)).map (fun o => (forIn o).map Prod.fst) =
      some [lit "1984", lit "Dune"] ∧
    (groupClippings (parseClippings duneText)).map formatAsMarkdown = some (lit
      "# My Kindle Highlights\n\n## 1984\n### by George Orwell\n\n> Big Brother\n> (location 3-4)\n\n----\n\n## Dune\n### by Frank Herbert\n\n> Fear is the mind-killer\n> (location 10-12)\n\n----\n\n") := by
  decide

/-- C8 fails on the highlight of `constructorText`, by a defect of the code:
`groupedByBook['constructor']` reads the inherited `Object.prototype.constructor`, which is
truthy, so no group is created and `.clips.push` raises a `TypeError`; there is no result to
hold the highlight. -/
theorem groupClippings_constructor :
    parseClippings constructorText =
      [⟨lit "constructor", lit "Unknown Author", lit "1-2", lit "location 1-2",
        lit "abc", 3⟩] ∧
    groupClippings (parseClippings constructorText) = none := by
  decide

/-! ## Lemmas on the author regular expression -/

theorem authorMatchAt_some (s a : JSString) (h : authorMatchAt s = some a) :
    s = 40 :: a ++ [41] ∧ a ≠ [] ∧ 41 ∉ a := by
  unfold authorMatchAt at h
  cases s with
  | nil => simp at h
  | cons c rest =>
    simp only at h
    split at h
    · rename_i hc
      obtain ⟨hc40, hne, hdrop⟩ := hc
      injection h with h
      subst h
      subst hc40
      refine ⟨?_, hne, ?_⟩
      · have h1 := List.takeWhile_append_dropWhile (fun x => x != 41) rest
        rw [← drop_takeWhile_length, hdrop] at h1
        rw [List.cons_append, h1]
      · intro hmem
        have := List.mem_takeWhile_imp hmem
        simp at this
    · exact absurd h (by simp)

theorem authorMatchAt_of (a : JSString) (h1 : a ≠ []) (h2 : 41 ∉ a) :
    authorMatchAt (40 :: a ++ [41]) = some a := by
  have ht : (a ++ [41]).takeWhile (fun x => x != 41) = a := by
    rw [List.takeWhile_append_of_pos]
    · simp
    · intro x hx
      have : x ≠ 41 := fun e => h2 (e ▸ hx)
      simpa using this
  simp only [authorMatchAt, List.cons_append, ht]
  simp [h1]

/-- What a match of the author regular expression is: the line ends with `(`, the capture,
`)`; the capture is non-empty and has no `)`; `index` is where the `(` stands. -/
theorem authorRegex_some :
    ∀ (s : JSString) (i : Nat) (a : JSString), authorRegex s = some (i, a) →
      ∃ P, s = P ++ 40 :: a ++ [41] ∧ P.length = i ∧ a ≠ [] ∧ 41 ∉ a := by
  intro s
  induction s with
  | nil => intro i a h; simp [authorRegex] at h
  | cons c cs ih =>
    intro i a h
    rw [authorRegex] at h
    cases hm : authorMatchAt (c :: cs) with
    | some a0 =>
      rw [hm] at h
      simp only [Option.some.injEq, Prod.mk.injEq] at h
      obtain ⟨hi, ha⟩ := h
      subst hi; subst ha
      obtain ⟨hs, hne, h41⟩ := authorMatchAt_some _ _ hm
      exact ⟨[], by simpa using hs, rfl, hne, h41⟩
    | none =>
      rw [hm] at h
      cases hr : authorRegex cs with
      | none => rw [hr] at h; simp at h
      | some r =>
        rw [hr] at h
        simp only [Option.map_some', Option.some.injEq, Prod.mk.injEq] at h
        obtain ⟨hi, ha⟩ := h
        obtain ⟨P, hs, hlen, hne, h41⟩ := ih r.1 r.2 hr
        subst ha
        refine ⟨c :: P, by rw [hs]; simp, by simp [hlen, hi], hne, h41⟩

/-- The leftmost match: every `(` before the one of the author is followed by a `)` that
comes before the author. -/
theorem authorRegex_of (A : JSString) (hA1 : A ≠ []) (hA2 : 41 ∉ A) :
    ∀ P : JSString, (∀ pre post, P = pre ++ 40 :: post → 41 ∈ post) →
      authorRegex (P ++ 40 :: A ++ [41]) = some (P.length, A) := by
  intro P
  induction P with
  | nil =>
    intro _
    have := authorMatchAt_of A hA1 hA2
    simp only [List.nil_append, List.cons_append] at this ⊢
    rw [authorRegex, this]
    rfl
  | cons c P ih =>
    intro hP
    have hnone : authorMatchAt (c :: (P ++ 40 :: A ++ [41])) = none := by
      cases hm : authorMatchAt (c :: (P ++ 40 :: A ++ [41])) with
      | none => rfl
      | some a0 =>
        exfalso
        obtain ⟨hs, _, h41⟩ := authorMatchAt_some _ _ hm
        simp only [List.cons_append, List.cons.injEq] at hs
        obtain ⟨hc, hs⟩ := hs
        have hs1 : (P ++ 40 :: A) ++ [41] = a0 ++ [41] := by rw [← hs]
        have ha0 := (List.append_inj' hs1 rfl).1
        apply h41
        rw [← ha0]
        have := hP [] P (by simp [hc])
        simp [this]
    have hrec := ih (fun pre post h => hP (c :: pre) post (by simp [h]))
    simp only [List.cons_append, List.append_assoc] at hnone hrec ⊢
    rw [authorRegex, hnone]
    simp only [hrec]
    rfl

theorem authorRegex_none_of_getLast (s : JSString) (h : s.getLast? ≠ some 41) :
    authorRegex s = none := by
  cases hr : authorRegex s with
  | none => rfl
  | some r =>
    exfalso
    obtain ⟨P, hs, _⟩ := authorRegex_some s r.1 r.2 hr
    apply h
    have hs1 : s = (P ++ 40 :: r.2) ++ [41] := by rw [hs]
    rw [hs1, List.getLast?_concat]

/-! ## C9: title and author -/

/-- C9, as stated, fails on `parenBlock`: the title line is `Foo (bar ` ++ `(` ++ `baz` ++
`)` and `baz` has no parenthesis, but the leftmost match of the regular expression starts at
the first `(`, so the author is `bar (baz` and the title is `Foo`. -/
theorem extractHighlight_author_counterexample :
    (blockLines parenBlock).head? = some (lit "Foo (bar " ++ 40 :: lit "baz" ++ [41]) ∧
    lit "baz" ≠ [] ∧ 40 ∉ lit "baz" ∧ 41 ∉ lit "baz" ∧
    extractHighlight parenBlock =
      some ⟨lit "Foo", lit "bar (baz", lit "1-2", lit "location 1-2", lit "abc", 3⟩ ∧
    lit "bar (baz" ≠ lit "baz" ∧ lit "Foo" ≠ trim (lit "Foo (bar ") := by
  decide

/-- C9, amended. For a valid block with the highlight `hl`: when the trimmed first line is
`P ++ "(" ++ A ++ ")"` with `A` non-empty and free of `(` and `)`, and every `(` of `P` is
followed by a `)` inside `P`, the author is `A` and the title is `P` trimmed; when the
trimmed first line does not end with `)`, the title is the whole line and the author is
`Unknown Author`. -/
theorem extractHighlight_title_author (block : JSString) (hl : Highlight)
    (hx : extractHighlight block = some hl) :
    (∀ P A : JSString, (blockLines block).head? = some (P ++ 40 :: A ++ [41]) →
      A ≠ [] → 40 ∉ A → 41 ∉ A → (∀ pre post, P = pre ++ 40 :: post → 41 ∈ post) →
      hl.author = A ∧ hl.title = trim P) ∧
    (∀ L : JSString, (blockLines block).head? = some L → L.getLast? ≠ some 41 →
      hl.title = L ∧ hl.author = lit "Unknown Author") := by
  obtain ⟨l0, l1, l2, more, hlines, _, ht, ha, _⟩ := extractHighlight_some block hl hx
  constructor
  · intro P A hhead hA1 _ hA2 hP
    rw [hlines] at hhead
    simp only [List.head?_cons, Option.some.injEq] at hhead
    have hre := authorRegex_of A hA1 hA2 P hP
    rw [ht, ha, hhead]
    unfold titleAuthor
    rw [hre]
    simp
  · intro L hhead hlast
    rw [hlines] at hhead
    simp only [List.head?_cons, Option.some.injEq] at hhead
    have hre := authorRegex_none_of_getLast L hlast
    rw [ht, ha, hhead]
    unfold titleAuthor
    rw [hre]
    exact ⟨rfl, rfl⟩

/-- C9, amended, on the first block of the end-to-end input: the title line
`Book One (Jane Doe)` gives the author `Jane Doe` and the title `Book One`. -/
theorem extractHighlight_title_author_witness :
    extractHighlight (lit "Book One (Jane Doe)\n- location 10-12\nFirst") =
      some ⟨lit "Book One", lit "Jane Doe", lit "10-12", lit "location 10-12",
        lit "First", 5⟩ ∧
    lit "Jane Doe" = lit "Jane Doe" ∧ lit "Book One" = trim (lit "Book One ") := by
  have hx : extractHighlight (lit "Book One (Jane Doe)\n- location 10-12\nFirst") =
      some ⟨lit "Book One", lit "Jane Doe", lit "10-12", lit "location 10-12",
        lit "First", 5⟩ := by decide
  refine ⟨hx, ?_⟩
  apply (extractHighlight_title_author _ _ hx).1 (lit "Book One ") (lit "Jane Doe")
    (by decide) (by decide) (by decide) (by decide)
  intro pre post hP
  have h40 : 40 ∈ lit "Book One " := by rw [hP]; simp
  exact absurd h40 (by decide)

/-! ## C10: the location -/

/-- C10. Every highlight returned by `parseClippings` is the record of a block of the text
with at least three lines, and its `location` is, verbatim, the leftmost match of
digits-hyphen-digits in the second line `l1` of the block: it is a non-empty digit run, a
hyphen and a non-empty digit run (so it has a hyphen and is never a single number), it
stands in `l1` between `pre` and `post`, the match is not cut short (`post` does not start
with a digit), and no substring of this form starts further left in `l1`. -/
theorem parseClippings_location (text : JSString) (hl : Highlight)
    (hm : hl ∈ parseClippings text) :
    ∃ block ∈ rawClippings text, ∃ l0 l1 l2 more,
      blockLines block = l0 :: l1 :: l2 :: more ∧ extractHighlight block = some hl ∧
      IsRange hl.location ∧ 45 ∈ hl.location ∧
      ∃ pre post, l1 = pre ++ hl.location ++ post ∧
        (∀ c rest, post = c :: rest → isDigit c = false) ∧
        ∀ pre1 m1 post1, l1 = pre1 ++ m1 ++ post1 → IsRange m1 →
          pre.length ≤ pre1.length := by
  have hv := mem_validRecords_of_mem_parseClippings text hl hm
  unfold validRecords at hv
  obtain ⟨block, hb, hx⟩ := List.mem_filterMap.1 hv
  obtain ⟨l0, l1, l2, more, hlines, hloc, _⟩ := extractHighlight_some block hl hx
  obtain ⟨hr, pre, post, hs, hpost, hleft⟩ := locationRangeRegex_some l1 _ hloc
  refine ⟨block, hb, l0, l1, l2, more, hlines, hx, hr, ?_, pre, post, hs, hpost, hleft⟩
  obtain ⟨d1, d2, _, _, _, _, hd⟩ := hr
  rw [hd]; simp

/-- C10 on `pageText`, whose meta line is `- page 12-13 | location 100-105`: the location
of the highlight is the first range, `12-13`. -/
theorem parseClippings_location_witness :
    parseClippings pageText =
      [⟨lit "Book", lit "Unknown Author", lit "12-13",
        lit "page 12-13 | location 100-105", lit "abc", 3⟩] ∧
    ∃ block ∈ rawClippings pageText, ∃ l0 l1 l2 more,
      blockLines block = l0 :: l1 :: l2 :: more ∧
      extractHighlight block = some ⟨lit "Book", lit "Unknown Author", lit "12-13",
        lit "page 12-13 | location 100-105", lit "abc", 3⟩ ∧
      IsRange (lit "12-13") ∧ 45 ∈ lit "12-13" ∧
      ∃ pre post, l1 = pre ++ lit "12-13" ++ post ∧
        (∀ c rest, post = c :: rest → isDigit c = false) ∧
        ∀ pre1 m1 post1, l1 = pre1 ++ m1 ++ post1 → IsRange m1 →
          pre.length ≤ pre1.length :=
  ⟨by decide, parseClippings_location pageText
    ⟨lit "Book", lit "Unknown Author", lit "12-13", lit "page 12-13 | location 100-105",
      lit "abc", 3⟩ (by decide)⟩

/-! ## Lemmas on `trim`, `split` and `join` -/

theorem trim_last_not_ws (s : JSString) (c : Nat) (h : (trim s).getLast? = some c) :
    isWhiteSpace c = false := by
  unfold trim at h
  rw [List.getLast?_reverse] at h
  obtain ⟨ys, hys⟩ := List.head?_eq_some_iff.1 h
  exact head_dropWhile_not isWhiteSpace _ c ys hys

theorem trim_prefix_dropWhile (s : JSString) : trim s <+: s.dropWhile isWhiteSpace :=
  List.rdropWhile_prefix isWhiteSpace (s.dropWhile isWhiteSpace)

theorem trim_head_not_ws (s : JSString) (c : Nat) (h : (trim s).head? = some c) :
    isWhiteSpace c = false := by
  obtain ⟨ys, hys⟩ := List.head?_eq_some_iff.1 h
  obtain ⟨t, ht⟩ := trim_prefix_dropWhile s
  rw [hys] at ht
  exact head_dropWhile_not isWhiteSpace s c (ys ++ t) (by rw [← ht]; simp)

theorem mem_of_mem_trim (s : JSString) (c : Nat) (h : c ∈ trim s) : c ∈ s :=
  (List.dropWhile_sublist isWhiteSpace).subset ((trim_prefix_dropWhile s).subset h)

theorem splitAux_single_cons (x c : Nat) (cs cur : JSString) :
    splitAux [x] (c :: cs) 0 cur =
      if c = x then cur.reverse :: splitAux [x] cs 0 [] else splitAux [x] cs 0 (c :: cur) := by
  by_cases h : c = x
  · subst h; simp [splitAux, List.isPrefixOf]
  · have h1 : ¬ x = c := fun e => h e.symm
    simp [splitAux, List.isPrefixOf, h, h1]

theorem not_mem_splitAux (x : Nat) :
    ∀ (s cur : JSString), x ∉ cur → ∀ p ∈ splitAux [x] s 0 cur, x ∉ p := by
  intro s
  induction s with
  | nil =>
    intro cur hcur p hp
    simp only [splitAux, List.mem_singleton] at hp
    subst hp; simpa using hcur
  | cons c cs ih =>
    intro cur hcur p hp
    rw [splitAux_single_cons] at hp
    by_cases h : c = x
    · rw [if_pos h] at hp
      rcases List.mem_cons.1 hp with hp | hp
      · subst hp; simpa using hcur
      · exact ih [] (List.not_mem_nil x) p hp
    · rw [if_neg h] at hp
      refine ih (c :: cur) ?_ p hp
      intro hm
      rcases List.mem_cons.1 hm with e | e
      · exact h e.symm
      · exact hcur e

theorem splitAux_append_of_not_mem (x : Nat) (rest : JSString) :
    ∀ (p cur : JSString), x ∉ p →
      splitAux [x] (p ++ rest) 0 cur = splitAux [x] rest 0 (p.reverse ++ cur) := by
  intro p
  induction p with
  | nil => intro cur _; rfl
  | cons c p ih =>
    intro cur hp
    simp only [List.mem_cons, not_or] at hp
    have hc : ¬ c = x := fun e => hp.1 e.symm
    rw [List.cons_append, splitAux_single_cons, if_neg hc, ih (c :: cur) hp.2]
    simp

/-- Splitting what was joined gives the pieces back, when no piece holds the separator. -/
theorem splitAux_join (x : Nat) :
    ∀ (ls : List JSString) (l cur : JSString), (∀ q ∈ l :: ls, x ∉ q) →
      splitAux [x] (join [x] (l :: ls)) 0 cur = (cur.reverse ++ l) :: ls := by
  intro ls
  induction ls with
  | nil =>
    intro l cur h
    have hl := h l (List.mem_cons_self _ _)
    have := splitAux_append_of_not_mem x [] l cur hl
    rw [List.append_nil] at this
    simp [join, this, splitAux]
  | cons q ls ih =>
    intro l cur h
    have hl := h l (List.mem_cons_self _ _)
    have hrest : ∀ r ∈ q :: ls, x ∉ r := fun r hr => h r (List.mem_cons_of_mem _ hr)
    rw [join, List.append_assoc, splitAux_append_of_not_mem x _ l cur hl]
    rw [List.singleton_append, splitAux_single_cons, if_pos rfl, ih q [] hrest]
    simp

theorem join_ne_nil (sep l : JSString) (ls : List JSString) (h : l ≠ []) :
    join sep (l :: ls) ≠ [] := by
  cases ls with
  | nil => simpa [join] using h
  | cons q ls => simp [join, h]

/-- The lines of a block are non-empty and trimmed, and hold no line feed. -/
theorem mem_blockLines (b l : JSString) (h : l ∈ blockLines b) :
    l ≠ [] ∧ 10 ∉ l ∧ (∀ c, l.head? = some c → isWhiteSpace c = false) ∧
      (∀ c, l.getLast? = some c → isWhiteSpace c = false) := by
  unfold blockLines at h
  obtain ⟨hmap, hlen⟩ := List.mem_filter.1 h
  obtain ⟨p, hp, hpl⟩ := List.mem_map.1 hmap
  subst hpl
  refine ⟨?_, ?_, trim_head_not_ws p, trim_last_not_ws p⟩
  · intro e
    rw [e] at hlen
    simp at hlen
  · intro hm
    exact not_mem_splitAux 10 _ [] (List.not_mem_nil _) p hp (mem_of_mem_trim p 10 hm)

/-! ## C11: the content -/

/-- C11. Every highlight returned by `parseClippings` is the record of a block of the text
whose `content` is the lines of the block from the third on, joined with line feeds. The
content is not empty, its lines (its pieces between line feeds) are exactly these lines of
the block, none of them is empty or starts or ends with white space, and `contentLength` is
the length of `content`. -/
theorem parseClippings_content (text : JSString) (hl : Highlight)
    (hm : hl ∈ parseClippings text) :
    ∃ block ∈ rawClippings text, ∃ l0 l1 l2 more,
      blockLines block = l0 :: l1 :: l2 :: more ∧ extractHighlight block = some hl ∧
      hl.content = join [10] (l2 :: more) ∧ hl.content ≠ [] ∧
      split hl.content [10] = l2 :: more ∧
      (∀ l ∈ split hl.content [10], l ≠ [] ∧
        (∀ c, l.head? = some c → isWhiteSpace c = false) ∧
        (∀ c, l.getLast? = some c → isWhiteSpace c = false)) ∧
      hl.contentLength = hl.content.length := by
  have hv := mem_validRecords_of_mem_parseClippings text hl hm
  unfold validRecords at hv
  obtain ⟨block, hb, hx⟩ := List.mem_filterMap.1 hv
  obtain ⟨l0, l1, l2, more, hlines, _, _, _, _, hcontent, hlen⟩ :=
    extractHighlight_some block hl hx
  have hmem : ∀ l ∈ l2 :: more, l ∈ blockLines block := by
    intro l hl; rw [hlines]; simp only [List.mem_cons] at hl ⊢; tauto
  have hsplit : split hl.content [10] = l2 :: more := by
    rw [hcontent, split, splitAux_join 10 more l2 []
      (fun q hq => (mem_blockLines block q (hmem q hq)).2.1)]
    rfl
  refine ⟨block, hb, l0, l1, l2, more, hlines, hx, hcontent, ?_, hsplit, ?_, hlen⟩
  · rw [hcontent]
    exact join_ne_nil _ _ _ (mem_blockLines block l2 (hmem l2 (List.mem_cons_self _ _))).1
  · intro l hl
    rw [hsplit] at hl
    have := mem_blockLines block l (hmem l hl)
    exact ⟨this.1, this.2.2.1, this.2.2.2⟩

/-- C11 on a block with a two-line content, the second line indented in the file. -/
theorem parseClippings_content_witness :
    parseClippings (lit "Book\n- location 1-2\n  first line \n\n\tsecond line\n") =
      [⟨lit "Book", lit "Unknown Author", lit "1-2", lit "location 1-2",
        lit "first line\nsecond line", 22⟩] ∧
    ∃ block ∈ rawClippings (lit "Book\n- location 1-2\n  first line \n\n\tsecond line\n"),
      ∃ l0 l1 l2 more,
        blockLines block = l0 :: l1 :: l2 :: more ∧
        extractHighlight block = some ⟨lit "Book", lit "Unknown Author", lit "1-2",
          lit "location 1-2", lit "first line\nsecond line", 22⟩ ∧
        lit "first line\nsecond line" = join [10] (l2 :: more) ∧
        lit "first line\nsecond line" ≠ [] ∧
        split (lit "first line\nsecond line") [10] = l2 :: more ∧
        (∀ l ∈ split (lit "first line\nsecond line") [10], l ≠ [] ∧
          (∀ c, l.head? = some c → isWhiteSpace c = false) ∧
          (∀ c, l.getLast? = some c → isWhiteSpace c = false)) ∧
        22 = (lit "first line\nsecond line").length :=
  ⟨by decide, parseClippings_content _
    ⟨lit "Book", lit "Unknown Author", lit "1-2", lit "location 1-2",
      lit "first line\nsecond line", 22⟩ (by decide)⟩

/-! ## C12: the Markdown text -/

theorem splitAux_ne_nil (sep : JSString) :
    ∀ (s : JSString) (skip : Nat) (cur : JSString), splitAux sep s skip cur ≠ [] := by
  intro s
  induction s with
  | nil => intro skip cur; simp [splitAux]
  | cons c cs ih =>
    intro skip cur
    cases skip with
    | zero =>
      rw [splitAux]
      split
      · simp
      · exact ih 0 _
    | succ n => rw [splitAux]; exact ih n cur

theorem join_cons_of_ne_nil (sep p : JSString) (rest : List JSString) (h : rest ≠ []) :
    join sep (p :: rest) = p ++ sep ++ join sep rest := by
  cases rest with
  | nil => exact absurd rfl h
  | cons q rest => rfl

/-- Splitting at the line feeds and joining with `"\n> "` replaces every line feed. -/
theorem join_splitAux_quote (sep : JSString) (hsep : sep = lit "\n> ") :
    ∀ (s cur : JSString),
      join sep (splitAux [10] s 0 cur) = cur.reverse ++ quoteNewlines s := by
  intro s
  induction s with
  | nil => intro cur; simp [splitAux, join, quoteNewlines]
  | cons c cs ih =>
    intro cur
    rw [splitAux_single_cons]
    by_cases h : c = 10
    · rw [if_pos h, join_cons_of_ne_nil _ _ _ (splitAux_ne_nil _ _ _ _), ih []]
      simp [quoteNewlines, h, hsep]
    · rw [if_neg h, ih (c :: cur)]
      simp [quoteNewlines, h]

theorem foldl_append_eq {α : Type} (f : α → JSString) :
    ∀ (l : List α) (init : JSString),
      l.foldl (fun out p => out ++ f p) init = init ++ (l.map f).flatten := by
  intro l
  induction l with
  | nil => intro init; simp
  | cons a l ih => intro init; simp [ih]

theorem formatClip_eq (clip : Highlight) :
    formatClip clip =
      lit "> " ++ quoteNewlines clip.content ++ lit "\n> (" ++ clip.metaLine ++
        lit ")\n\n" := by
  have h1 : lit "\n" ++ lit "> (" = lit "\n> (" := by decide
  unfold formatClip split
  rw [join_splitAux_quote _ rfl]
  simp only [List.reverse_nil, List.nil_append, List.append_assoc]
  rw [← List.append_assoc (lit "\n") (lit "> ("), h1]

theorem formatBook_eq (title : JSString) (book : BookGroup) :
    formatBook title book =
      lit "## " ++ title ++ lit "\n### by " ++ book.author ++ lit "\n\n" ++
        (book.clips.map (fun clip =>
          lit "> " ++ quoteNewlines clip.content ++ lit "\n> (" ++ clip.metaLine ++
            lit ")\n\n")).flatten ++
        lit "----\n\n" := by
  have h1 : lit "\n" ++ lit "### by " = lit "\n### by " := by decide
  have h2 : book.clips.map formatClip = book.clips.map (fun clip =>
      lit "> " ++ quoteNewlines clip.content ++ lit "\n> (" ++ clip.metaLine ++
        lit ")\n\n") := List.map_congr_left (fun c _ => formatClip_eq c)
  unfold formatBook
  rw [h2]
  simp only [List.append_assoc]
  rw [← List.append_assoc (lit "\n") (lit "### by "), h1]

/-- C12. For every grouped structure, `formatAsMarkdown` returns exactly the text of the
specification (`markdownSpec`) for the groups in their order of enumeration: the header,
then for each group `## title`, `### by author`, a blank line, for each clip of the group
`> ` and the content with every line feed replaced by `"\n> "`, then `> (metaLine)` and a
blank line, and `----` and a blank line after every group, the last included. For an object
without groups the text is the header alone. -/
theorem formatAsMarkdown_eq_spec (o : JSObject) :
    formatAsMarkdown o = markdownSpec (forIn o) ∧
    formatAsMarkdown [] = lit "# My Kindle Highlights\n\n" := by
  constructor
  · unfold formatAsMarkdown markdownSpec
    rw [foldl_append_eq (fun p : JSString × BookGroup => formatBook p.1 p.2)]
    congr 2
    exact List.map_congr_left (fun p _ => formatBook_eq p.1 p.2)
  · decide

/-! ## C13: the end-to-end example -/

set_option maxRecDepth 16000 in
/-- C13. On the end-to-end input of the specification the pipeline yields exactly one group,
`Book One` by `Jane Doe`, whose clips are the highlight at 1-3 followed by the highlight at
10-12. The Markdown text holds `## Book One`, `### by Jane Doe`, then
`> Second highlight text` before `> First highlight text`, and ends with the separator
`----` and its blank line. -/
theorem onload_end_to_end :
    groupClippings (parseClippings e2eText) = some
      [(lit "Book One", ⟨lit "Jane Doe",
        [⟨lit "Book One", lit "Jane Doe", lit "1-3",
            lit "Your Highlight at location 1-3 | Added on ...",
            lit "Second highlight text", 21⟩,
         ⟨lit "Book One", lit "Jane Doe", lit "10-12",
            lit "Your Highlight at location 10-12 | Added on ...",
            lit "First highlight text", 20⟩]⟩)] ∧
    onload e2eText = some
      (lit "# My Kindle Highlights\n\n" ++ lit "## Book One" ++ lit "\n" ++
        lit "### by Jane Doe" ++ lit "\n\n" ++
        lit "> Second highlight text" ++
        lit "\n> (Your Highlight at location 1-3 | Added on ...)\n\n" ++
        lit "> First highlight text" ++
        lit "\n> (Your Highlight at location 10-12 | Added on ...)\n\n" ++
        lit "----\n\n") ∧
    (∀ md, onload e2eText = some md →
      lit "## Book One" <:+: md ∧ lit "### by Jane Doe" <:+: md ∧
      lit "> Second highlight text" <:+: md ∧ lit "> First highlight text" <:+: md ∧
      lit "----\n\n" <:+ md) := by
  have hmd : onload e2eText = some
      (lit "# My Kindle Highlights\n\n" ++ lit "## Book One" ++ lit "\n" ++
        lit "### by Jane Doe" ++ lit "\n\n" ++
        lit "> Second highlight text" ++
        lit "\n> (Your Highlight at location 1-3 | Added on ...)\n\n" ++
        lit "> First highlight text" ++
        lit "\n> (Your Highlight at location 10-12 | Added on ...)\n\n" ++
        lit "----\n\n") := by decide
  refine ⟨by decide, hmd, ?_⟩
  intro md h
  rw [hmd] at h
  injection h with h
  subst h
  refine ⟨?_, ?_, ?_, ?_, ?_⟩
  · exact ⟨lit "# My Kindle Highlights\n\n", lit "\n" ++
      lit "### by Jane Doe" ++ lit "\n\n" ++
      lit "> Second highlight text" ++
      lit "\n> (Your Highlight at location 1-3 | Added on ...)\n\n" ++
      lit "> First highlight text" ++
      lit "\n> (Your Highlight at location 10-12 | Added on ...)\n\n" ++
      lit "----\n\n", by simp only [List.append_assoc]⟩
  · exact ⟨lit "# My Kindle Highlights\n\n" ++ lit "## Book One" ++ lit "\n", lit "\n\n" ++
      lit "> Second highlight text" ++
      lit "\n> (Your Highlight at location 1-3 | Added on ...)\n\n" ++
      lit "> First highlight text" ++
      lit "\n> (Your Highlight at location 10-12 | Added on ...)\n\n" ++
      lit "----\n\n", by simp only [List.append_assoc]⟩
  · exact ⟨lit "# My Kindle Highlights\n\n" ++ lit "## Book One" ++ lit "\n" ++
      lit "### by Jane Doe" ++ lit "\n\n",
      lit "\n> (Your Highlight at location 1-3 | Added on ...)\n\n" ++
      lit "> First highlight text" ++
      lit "\n> (Your Highlight at location 10-12 | Added on ...)\n\n" ++
      lit "----\n\n", by simp only [List.append_assoc]⟩
  · exact ⟨lit "# My Kindle Highlights\n\n" ++ lit "## Book One" ++ lit "\n" ++
      lit "### by Jane Doe" ++ lit "\n\n" ++
      lit "> Second highlight text" ++
      lit "\n> (Your Highlight at location 1-3 | Added on ...)\n\n",
      lit "\n> (Your Highlight at location 10-12 | Added on ...)\n\n" ++
      lit "----\n\n", by simp only [List.append_assoc]⟩
  · exact ⟨lit "# My Kindle Highlights\n\n" ++ lit "## Book One" ++ lit "\n" ++
      lit "### by Jane Doe" ++ lit "\n\n" ++
      lit "> Second highlight text" ++
      lit "\n> (Your Highlight at location 1-3 | Added on ...)\n\n" ++
      lit "> First highlight text" ++
      lit "\n> (Your Highlight at location 10-12 | Added on ...)\n\n", rfl⟩

/-! ## C14: line endings -/

theorem replaceCRLF_cons_of_ne (c : Nat) (s : JSString) (h : c ≠ 13) :
    replaceCRLF (c :: s) = c :: replaceCRLF s := by
  cases s with
  | nil => simp [replaceCRLF]
  | cons d r => simp [replaceCRLF, h]

theorem replaceCRLF_of_not_mem (s : JSString) (h : 13 ∉ s) : replaceCRLF s = s := by
  induction s with
  | nil => rfl
  | cons c cs ih =>
    simp only [List.mem_cons, not_or] at h
    rw [replaceCRLF_cons_of_ne c cs (fun e => h.1 e.symm), ih h.2]

theorem replaceCRLF_toCRLF (s : JSString) (h : 13 ∉ s) : replaceCRLF (toCRLF s) = s := by
  induction s with
  | nil => rfl
  | cons c cs ih =>
    simp only [List.mem_cons, not_or] at h
    by_cases hc : c = 10
    · subst hc
      simp [toCRLF, replaceCRLF, ih h.2]
    · rw [toCRLF, if_neg hc, replaceCRLF_cons_of_ne c _ (fun e => h.1 e.symm), ih h.2]

/-- C14. For every text without carriage return, the text with every line feed replaced by
carriage return, line feed is parsed into the same list of highlights as the text itself:
the normalisation of the line endings gives the text back. -/
theorem parseClippings_toCRLF (s : JSString) (h : 13 ∉ s) :
    replaceCRLF (toCRLF s) = replaceCRLF s ∧
    parseClippings (toCRLF s) = parseClippings s := by
  have h1 : replaceCRLF (toCRLF s) = replaceCRLF s := by
    rw [replaceCRLF_toCRLF s h, replaceCRLF_of_not_mem s h]
  refine ⟨h1, ?_⟩
  unfold parseClippings rawClippings
  rw [h1]

/-- C14 on the end-to-end input of the specification and its Windows form. -/
theorem parseClippings_toCRLF_witness :
    13 ∉ e2eText ∧ 13 ∈ toCRLF e2eText ∧
    replaceCRLF (toCRLF e2eText) = replaceCRLF e2eText ∧
    parseClippings (toCRLF e2eText) = parseClippings e2eText :=
  ⟨by decide, by decide, parseClippings_toCRLF e2eText (by decide)⟩

/-! ## C15: when the pipeline raises -/

theorem addClip_keys (o o1 : JSObject) (c : Highlight)
    (ho : ∀ p ∈ o, p.1 ∉ objectPrototypeKeys) (h : addClip o c = some o1) :
    ∀ p ∈ o1, p.1 ∉ objectPrototypeKeys := by
  rw [addClip_eq] at h
  cases hg : ownGet o c.title with
  | some g =>
    simp only [hg, Option.some.injEq] at h
    subst h
    intro p hp
    have h1 : p.1 ∈ (ownSet o c.title { g with clips := g.clips ++ [c] }).map Prod.fst :=
      List.mem_map_of_mem Prod.fst hp
    rw [map_fst_ownSet] at h1
    obtain ⟨q, hq, hqp⟩ := List.mem_map.1 h1
    rw [← hqp]; exact ho q hq
  | none =>
    simp only [hg] at h
    split at h
    · exact absurd h (by simp)
    · rename_i hproto
      simp only [Option.some.injEq] at h
      subst h
      intro p hp
      rcases List.mem_append.1 hp with hp | hp
      · exact ho p hp
      · rw [List.mem_singleton] at hp; subst hp; exact hproto

theorem addClip_eq_none_iff (o : JSObject) (c : Highlight)
    (ho : ∀ p ∈ o, p.1 ∉ objectPrototypeKeys) :
    addClip o c = none ↔ c.title ∈ objectPrototypeKeys := by
  rw [addClip_eq]
  cases hg : ownGet o c.title with
  | some g =>
    have hk := ho _ (ownGet_some_mem o _ g hg)
    simp only at hk
    simp [hk]
  | none =>
    by_cases hp : c.title ∈ objectPrototypeKeys
    · simp [hp]
    · simp [hp]

/-- The first loop raises exactly when a clip has the name of a property of
`Object.prototype` as its title. -/
theorem addClips_eq_none_iff (cs : List Highlight) :
    ∀ o : JSObject, (∀ p ∈ o, p.1 ∉ objectPrototypeKeys) →
      (addClips o cs = none ↔ ∃ c ∈ cs, c.title ∈ objectPrototypeKeys) := by
  induction cs with
  | nil => intro o _; simp [addClips]
  | cons c rest ih =>
    intro o ho
    rw [addClips]
    cases hs : addClip o c with
    | none =>
      have := (addClip_eq_none_iff o c ho).1 hs
      simp [this]
    | some o1 =>
      have hc : c.title ∉ objectPrototypeKeys := fun hm => by
        rw [(addClip_eq_none_iff o c ho).2 hm] at hs
        exact absurd hs (by simp)
      simp only
      rw [ih o1 (addClip_keys o o1 c ho hs)]
      simp [hc]

theorem sortClips_isSome (cs : List Highlight)
    (h : ∀ c ∈ cs, (getLocNum c.location).isSome = true) : ∃ cs1, sortClips cs = some cs1 := by
  unfold sortClips
  split
  · exact ⟨_, rfl⟩
  · have hall : cs.all (fun c => (getLocNum c.location).isSome) = true :=
      List.all_eq_true.2 h
    rw [if_pos hall]
    exact ⟨_, rfl⟩

theorem sortGroups_isSome (o : JSObject)
    (h : ∀ p ∈ o, ∀ c ∈ p.2.clips, (getLocNum c.location).isSome = true) :
    ∃ o1, sortGroups o = some o1 := by
  induction o with
  | nil => exact ⟨[], rfl⟩
  | cons p rest ih =>
    obtain ⟨k, g⟩ := p
    obtain ⟨cs1, hcs⟩ := sortClips_isSome g.clips (h (k, g) (List.mem_cons_self _ _))
    obtain ⟨r1, hr⟩ := ih (fun q hq => h q (List.mem_cons_of_mem _ hq))
    rw [sortGroups, hcs, hr]
    exact ⟨_, rfl⟩

/-- The second loop never raises on the highlights of a text: their locations have a
digit, so the first-number match of the comparator succeeds. -/
theorem sortGroups_parse_isSome (text : JSString) (o0 : JSObject)
    (h : addClips [] (parseClippings text) = some o0) : ∃ o, sortGroups o0 = some o := by
  have hinv := groupInv_addClips (parseClippings text) [] o0 [] groupInv_nil h
  simp only [List.nil_append] at hinv
  apply sortGroups_isSome
  intro p hp c hc
  rw [(hinv.entry p hp).1] at hc
  have hr := isRange_of_mem_validRecords text c
    (mem_validRecords_of_mem_parseClippings text c (List.mem_filter.1 hc).1)
  rw [getLocNum_of_isRange _ hr]
  rfl

/-- C15 fails on the highlight of `toStringText`, by a defect of the code: the title
`toString` names a property of `Object.prototype`, `groupedByBook['toString']` is truthy
without being a group, and `.clips.push` raises a `TypeError`. This is the only way the
pipeline raises: for every text, a step of `onload` raises exactly when a returned highlight
has such a title (the comparator of the sort never fails). -/
theorem onload_raises :
    parseClippings toStringText =
      [⟨lit "toString", lit "Ann", lit "1-2", lit "location 1-2", lit "abc", 3⟩] ∧
    onload toStringText = none ∧
    ∀ text, onload text = none ↔
      ∃ h ∈ parseClippings text, h.title ∈ objectPrototypeKeys := by
  refine ⟨by decide, by decide, ?_⟩
  intro text
  have hiff := addClips_eq_none_iff (parseClippings text) []
    (fun p hp => absurd hp (List.not_mem_nil p))
  unfold onload groupClippings
  cases ha : addClips [] (parseClippings text) with
  | none =>
    rw [ha] at hiff
    simp only [true_iff] at hiff ⊢
    exact hiff
  | some o0 =>
    rw [ha] at hiff
    obtain ⟨o, ho⟩ := sortGroups_parse_isSome text o0 ha
    simp only [ho]
    constructor
    · intro h; exact absurd h (by simp)
    · intro h; exact absurd (hiff.2 h) (by simp)

/-! ## C16: the toggle of a section -/

theorem clickHeader_getElem_ne :
    ∀ (page : List BookSection) (i j : Nat), i ≠ j →
      (clickHeader i page)[j]? = page[j]? := by
  intro page
  induction page with
  | nil => intro i j _; cases i <;> rfl
  | cons s rest ih =>
    intro i j h
    cases i with
    | zero =>
      cases j with
      | zero => exact absurd rfl h
      | succ j => simp [clickHeader]
    | succ i =>
      cases j with
      | zero => simp [clickHeader]
      | succ j =>
        simp only [clickHeader, List.getElem?_cons_succ]
        exact ih i j (fun e => h (by rw [e]))

theorem clickHeader_getElem_self :
    ∀ (page : List BookSection) (j : Nat),
      (clickHeader j page)[j]? = (page[j]?).map clickListener := by
  intro page
  induction page with
  | nil => intro j; cases j <;> rfl
  | cons s rest ih =>
    intro j
    cases j with
    | zero => simp [clickHeader]
    | succ j =>
      simp only [clickHeader, List.getElem?_cons_succ]
      exact ih j

/-- The state of a section after a sequence of clicks: its listener has run once for each
click on its own header. -/
theorem afterClicks_getElem (clicks : List Nat) (j : Nat) :
    ∀ page : List BookSection,
      (afterClicks page clicks)[j]? = (page[j]?).map (clickListener^[clicks.count j]) := by
  induction clicks with
  | nil => intro page; simp [afterClicks]
  | cons i rest ih =>
    intro page
    have hstep : afterClicks page (i :: rest) = afterClicks (clickHeader i page) rest := rfl
    rw [hstep, ih (clickHeader i page)]
    by_cases h : i = j
    · subst h
      rw [clickHeader_getElem_self, List.count_cons_self, Function.iterate_succ,
        Option.map_map]
    · rw [clickHeader_getElem_ne page i j h, List.count_cons_of_ne (fun e => h e.symm)]

theorem active_mem_toggle (classes : List JSString) :
    lit "active" ∈ classListToggle classes (lit "active") ↔ lit "active" ∉ classes := by
  unfold classListToggle
  by_cases h : lit "active" ∈ classes
  · simp [h]
  · simp [h]

/-- One click on the header of a section flips both parts of its state. -/
theorem toggle_step (n : Nat) (s : BookSection)
    (h : (shown s ↔ n % 2 = 1) ∧ (lit "active" ∈ s.headerClasses ↔ shown s)) :
    (shown (clickListener s) ↔ (n + 1) % 2 = 1) ∧
      (lit "active" ∈ (clickListener s).headerClasses ↔ shown (clickListener s)) := by
  obtain ⟨h1, h2⟩ := h
  have hne : lit "none" ≠ lit "block" := by decide
  have hcls : lit "active" ∈ (clickListener s).headerClasses ↔ ¬ shown s := by
    show lit "active" ∈ classListToggle s.headerClasses (lit "active") ↔ _
    rw [active_mem_toggle, h2]
  rw [hcls]
  by_cases hd : shown s
  · have hn := h1.1 hd
    have hnew : ¬ shown (clickListener s) := by
      unfold shown at hd ⊢
      simp only [clickListener, hd, if_true]
      exact hne
    have hodd : ¬ (n + 1) % 2 = 1 := by omega
    exact ⟨⟨fun e => absurd e hnew, fun e => absurd e hodd⟩,
      ⟨fun e => absurd hd e, fun e => absurd e hnew⟩⟩
  · have hn : ¬ n % 2 = 1 := fun e => hd (h1.2 e)
    have hnew : shown (clickListener s) := by
      unfold shown at hd ⊢
      simp only [clickListener, hd, if_false]
    have hodd : (n + 1) % 2 = 1 := by omega
    exact ⟨⟨fun _ => hodd, fun _ => hnew⟩, ⟨fun _ => hnew, fun _ => hd⟩⟩

theorem toggle_iterate (s0 : BookSection)
    (h0 : ¬ shown s0 ∧ lit "active" ∉ s0.headerClasses) :
    ∀ n, (shown (clickListener^[n] s0) ↔ n % 2 = 1) ∧
      (lit "active" ∈ (clickListener^[n] s0).headerClasses ↔
        shown (clickListener^[n] s0)) := by
  intro n
  induction n with
  | zero => simp [h0.1, h0.2]
  | succ n ih =>
    rw [Function.iterate_succ_apply']
    exact toggle_step n _ ih

theorem displayAsHtml_initial (o : JSObject) (s0 : BookSection) (h : s0 ∈ displayAsHtml o) :
    ¬ shown s0 ∧ lit "active" ∉ s0.headerClasses := by
  unfold displayAsHtml at h
  obtain ⟨p, _, hp⟩ := List.mem_map.1 h
  subst hp
  have h1 : ¬ ([] : JSString) = lit "block" := by decide
  have h2 : lit "active" ∉ [lit "book-header"] := by decide
  exact ⟨h1, h2⟩

/-- C16. For every grouped structure and every sequence of clicks on headers, the state `s`
of section `j` of the page rendered by `displayAsHtml` satisfies: its list is shown exactly
when header `j` was clicked an odd number of times, its header has the class `active`
exactly when the list is shown, and `s` is the initial state of the section after as many
runs of its listener as there were clicks on header `j`; a click on another header leaves
the state of section `j` as it is. -/
theorem displayAsHtml_toggle (o : JSObject) (clicks : List Nat) (j : Nat) (s : BookSection)
    (h : (afterClicks (displayAsHtml o) clicks)[j]? = some s) :
    (shown s ↔ clicks.count j % 2 = 1) ∧
    (lit "active" ∈ s.headerClasses ↔ shown s) ∧
    (∃ s0, (displayAsHtml o)[j]? = some s0 ∧ ¬ shown s0 ∧
      s = clickListener^[clicks.count j] s0) ∧
    (∀ (page : List BookSection) (i : Nat), i ≠ j → (clickHeader i page)[j]? = page[j]?) := by
  rw [afterClicks_getElem] at h
  cases h0 : (displayAsHtml o)[j]? with
  | none => rw [h0] at h; simp at h
  | some s0 =>
    rw [h0] at h
    simp only [Option.map_some', Option.some.injEq] at h
    have hinit := displayAsHtml_initial o s0 (List.getElem?_mem h0)
    have hit := toggle_iterate s0 hinit (clicks.count j)
    rw [h] at hit
    exact ⟨hit.1, hit.2, ⟨s0, rfl, hinit.1, h.symm⟩,
      fun page i hij => clickHeader_getElem_ne page i j hij⟩

/-- C16 on a page with two sections, after clicks on the headers 0, 1, 0 and 0: section 0 was
clicked three times and is shown, with an `active` header. -/
theorem displayAsHtml_toggle_witness :
    (afterClicks (displayAsHtml twoBooks) [0, 1, 0, 0])[0]? =
      some ⟨lit "Dune", lit "by Frank Herbert",
        [(lit "Fear is the mind-killer", lit "(location 10-12)")],
        [lit "book-header", lit "active"], lit "block"⟩ ∧
    (shown (⟨lit "Dune", lit "by Frank Herbert",
        [(lit "Fear is the mind-killer", lit "(location 10-12)")],
        [lit "book-header", lit "active"], lit "block"⟩ : BookSection) ↔
      [0, 1, 0, 0].count 0 % 2 = 1) :=
  ⟨by decide, (displayAsHtml_toggle twoBooks [0, 1, 0, 0] 0 _ (by decide)).1⟩

/-! ## C17: the sort is stable -/

theorem locLE_of_firstNumber_eq (a b : Highlight)
    (ha : (getLocNum a.location).isSome = true) (hb : (getLocNum b.location).isSome = true)
    (h : firstNumber a.location = firstNumber b.location) : locLE a b := by
  unfold locLE getLocNum firstNumber at *
  cases hda : firstDigitRun a.location with
  | none => rw [hda] at ha; simp at ha
  | some da =>
    cases hdb : firstDigitRun b.location with
    | none => rw [hdb] at hb; simp at hb
    | some db =>
      rw [hda, hdb] at h
      simp only [Option.map_some', Option.getD_some] at h ⊢
      unfold parseInt
      rw [h]

/-- C17. For every list of highlights on which `groupClippings` succeeds, two highlights of
one title whose locations have the same first number, the first standing before the second
in the list, stand in the same order in the clips of the group of the title. -/
theorem groupClippings_stable (clips : List Highlight) (o : JSObject)
    (h : groupClippings clips = some o) (t : JSString) (g : BookGroup) (hm : (t, g) ∈ o)
    (a b : Highlight) (hab : List.Sublist [a, b] clips) (ha : a.title = t) (hb : b.title = t)
    (hnum : firstNumber a.location = firstNumber b.location) :
    List.Sublist [a, b] g.clips := by
  obtain ⟨o0, hinv, hsort⟩ := groupClippings_some _ _ h
  obtain ⟨g0, hg0, _, hsc⟩ := sortGroups_mem o0 o hsort (t, g) hm
  have hclips := (hinv.entry (t, g0) hg0).1
  simp only at hclips hsc
  have hsub : List.Sublist [a, b] g0.clips := by
    rw [hclips]
    have := List.Sublist.filter (fun c : Highlight => decide (c.title = t)) hab
    simpa [ha, hb] using this
  unfold sortClips at hsc
  split at hsc
  · simp only [Option.some.injEq] at hsc
    rw [← hsc]; exact hsub
  · split at hsc
    · rename_i hall
      simp only [Option.some.injEq] at hsc
      rw [← hsc]
      have hall1 := List.all_eq_true.1 hall
      have hle : locLE a b :=
        locLE_of_firstNumber_eq a b (hall1 a (hsub.subset (by simp)))
          (hall1 b (hsub.subset (by simp))) hnum
      exact List.pair_sublist_insertionSort hle hsub
    · exact absurd hsc (by simp)

/-- C17 on `stableClips`, three highlights of one book at the locations 10-15, 3-4 and
10-12: the clip at 10-15 stays before the clip at 10-12. -/
theorem groupClippings_stable_witness :
    groupClippings stableClips = some
      [(lit "Book", ⟨lit "Ann",
        [⟨lit "Book", lit "Ann", lit "3-4", lit "location 3-4", lit "b", 1⟩,
         ⟨lit "Book", lit "Ann", lit "10-15", lit "location 10-15", lit "a", 1⟩,
         ⟨lit "Book", lit "Ann", lit "10-12", lit "location 10-12", lit "c", 1⟩]⟩)] ∧
    List.Sublist
      [(⟨lit "Book", lit "Ann", lit "10-15", lit "location 10-15", lit "a", 1⟩ : Highlight),
        ⟨lit "Book", lit "Ann", lit "10-12", lit "location 10-12", lit "c", 1⟩]
      [⟨lit "Book", lit "Ann", lit "3-4", lit "location 3-4", lit "b", 1⟩,
       ⟨lit "Book", lit "Ann", lit "10-15", lit "location 10-15", lit "a", 1⟩,
       ⟨lit "Book", lit "Ann", lit "10-12", lit "location 10-12", lit "c", 1⟩] :=
  ⟨by decide, groupClippings_stable stableClips
    [(lit "Book", ⟨lit "Ann",
      [⟨lit "Book", lit "Ann", lit "3-4", lit "location 3-4", lit "b", 1⟩,
       ⟨lit "Book", lit "Ann", lit "10-15", lit "location 10-15", lit "a", 1⟩,
       ⟨lit "Book", lit "Ann", lit "10-12", lit "location 10-12", lit "c", 1⟩]⟩)]
    (by decide) (lit "Book")
    ⟨lit "Ann",
      [⟨lit "Book", lit "Ann", lit "3-4", lit "location 3-4", lit "b", 1⟩,
       ⟨lit "Book", lit "Ann", lit "10-15", lit "location 10-15", lit "a", 1⟩,
       ⟨lit "Book", lit "Ann", lit "10-12", lit "location 10-12", lit "c", 1⟩]⟩
    (List.mem_singleton.2 rfl)
    ⟨lit "Book", lit "Ann", lit "10-15", lit "location 10-15", lit "a", 1⟩
    ⟨lit "Book", lit "Ann", lit "10-12", lit "location 10-12", lit "c", 1⟩
    (((List.Sublist.refl _).cons _).cons₂ _) rfl rfl (by decide)⟩

/-! ## C18: the order of the returned highlights -/

/-- A key that occurs before the first occurrence of another key stands before it among
the first occurrences. -/
theorem pair_sublist_firstOccurrences (P : List JSString) (k1 k2 : JSString)
    (h2 : k2 ∉ P) (h1 : k1 ∈ P) :
    ∀ Q : List JSString, List.Sublist [k1, k2] (firstOccurrences (P ++ k2 :: Q)) := by
  intro Q
  induction Q using List.reverseRecOn with
  | nil =>
    have hc := firstOccurrences_concat P k2
    rw [if_neg h2] at hc
    rw [hc]
    have hk1 : List.Sublist [k1] (firstOccurrences P) :=
      List.singleton_sublist.2 ((mem_firstOccurrences P k1).2 h1)
    exact List.Sublist.append hk1 (List.Sublist.refl [k2])
  | append_singleton Q a ih =>
    have hc := firstOccurrences_concat (P ++ k2 :: Q) a
    have he : P ++ k2 :: (Q ++ [a]) = (P ++ k2 :: Q) ++ [a] := by simp
    rw [he, hc]
    split
    · exact ih
    · exact ih.trans (List.sublist_append_left _ _)

theorem map_clipKey_parseClippings (text : JSString) :
    (parseClippings text).map clipKey =
      firstOccurrences ((validRecords text).map clipKey) := by
  have inv := dedupInv_validRecords text
  rw [← inv.order, parseClippings_eq, List.map_map]
  apply List.map_congr_left
  intro p hp
  exact ((inv.entry p hp).1).symm

/-- C18. The keys of the highlights returned by `parseClippings`, in their order, are the
keys of the valid blocks in the order of their first occurrence. Hence, when a block `r1`
stands before the first block `r2` of another key, the returned highlight with the title
and location of `r1` stands before the returned highlight with the title and location of
`r2`, whichever block of its key gave it its content. -/
theorem parseClippings_order (text : JSString) :
    (parseClippings text).map clipKey =
      firstOccurrences ((validRecords text).map clipKey) ∧
    ∀ (pre mid post : List Highlight) (r1 r2 : Highlight),
      validRecords text = pre ++ r1 :: mid ++ r2 :: post →
      (∀ x ∈ pre ++ r1 :: mid, ¬ (x.title = r2.title ∧ x.location = r2.location)) →
      ∃ h1 h2, List.Sublist [h1, h2] (parseClippings text) ∧
        h1.title = r1.title ∧ h1.location = r1.location ∧
        h2.title = r2.title ∧ h2.location = r2.location := by
  have hmap := map_clipKey_parseClippings text
  refine ⟨hmap, ?_⟩
  intro pre mid post r1 r2 hd hfirst
  have hv : ∀ x ∈ pre ++ r1 :: mid ++ r2 :: post, x ∈ validRecords text := by
    intro x hx; rw [hd]; exact hx
  have hr1 : r1 ∈ validRecords text := hv r1 (by simp)
  have hr2 : r2 ∈ validRecords text := hv r2 (by simp)
  have hk2 : clipKey r2 ∉ (pre ++ r1 :: mid).map clipKey := by
    intro hm
    obtain ⟨x, hx, hxk⟩ := List.mem_map.1 hm
    have hxv : x ∈ validRecords text := hv x (by simp at hx ⊢; tauto)
    exact hfirst x hx (clipKey_inj x r2 (isRange_of_mem_validRecords text x hxv)
      (isRange_of_mem_validRecords text r2 hr2) hxk)
  have hk1 : clipKey r1 ∈ (pre ++ r1 :: mid).map clipKey :=
    List.mem_map_of_mem clipKey (by simp)
  have hsub := pair_sublist_firstOccurrences _ (clipKey r1) (clipKey r2) hk2 hk1
    (post.map clipKey)
  have hkeys : (validRecords text).map clipKey =
      (pre ++ r1 :: mid).map clipKey ++ clipKey r2 :: post.map clipKey := by
    rw [hd]; simp
  rw [← hkeys, ← hmap] at hsub
  obtain ⟨l, hl, hlk⟩ := List.sublist_map_iff.1 hsub
  obtain ⟨h1, l1, hl1, e1, hm1⟩ := List.map_eq_cons_iff.1 hlk.symm
  obtain ⟨h2, l2, hl2, e2, hm2⟩ := List.map_eq_cons_iff.1 hm1
  have hl3 : l2 = [] := List.map_eq_nil_iff.1 hm2
  subst hl1; subst hl2; subst hl3
  have hh1 := mem_validRecords_of_mem_parseClippings text h1 (hl.subset (by simp))
  have hh2 := mem_validRecords_of_mem_parseClippings text h2 (hl.subset (by simp))
  have c1 := clipKey_inj h1 r1 (isRange_of_mem_validRecords text h1 hh1)
    (isRange_of_mem_validRecords text r1 hr1) e1
  have c2 := clipKey_inj h2 r2 (isRange_of_mem_validRecords text h2 hh2)
    (isRange_of_mem_validRecords text r2 hr2) e2
  exact ⟨h1, h2, hl, c1.1, c1.2, c2.1, c2.2⟩

/-- C18 on `orderText`: the key of location 1-2 comes first and keeps the first place,
although its content is taken from the third block. -/
theorem parseClippings_order_witness :
    validRecords orderText =
      [] ++ ⟨lit "Book", lit "Ann", lit "1-2", lit "location 1-2", lit "abc", 3⟩ :: [] ++
        ⟨lit "Book", lit "Ann", lit "5-6", lit "location 5-6", lit "xyz", 3⟩ ::
        [⟨lit "Book", lit "Ann", lit "1-2", lit "location 1-2", lit "abcdef", 6⟩] ∧
    parseClippings orderText =
      [⟨lit "Book", lit "Ann", lit "1-2", lit "location 1-2", lit "abcdef", 6⟩,
       ⟨lit "Book", lit "Ann", lit "5-6", lit "location 5-6", lit "xyz", 3⟩] ∧
    ∃ h1 h2, List.Sublist [h1, h2] (parseClippings orderText) ∧
      h1.title = lit "Book" ∧ h1.location = lit "1-2" ∧
      h2.title = lit "Book" ∧ h2.location = lit "5-6" := by
  have hd : validRecords orderText =
      [] ++ ⟨lit "Book", lit "Ann", lit "1-2", lit "location 1-2", lit "abc", 3⟩ :: [] ++
        ⟨lit "Book", lit "Ann", lit "5-6", lit "location 5-6", lit "xyz", 3⟩ ::
        [⟨lit "Book", lit "Ann", lit "1-2", lit "location 1-2", lit "abcdef", 6⟩] := by
    decide
  exact ⟨hd, by decide, (parseClippings_order orderText).2 _ _ _ _ _ hd (by decide)⟩

/-! ## C19: nothing of the title line is lost -/

/-- A string that does not start with white space is its trimmed form followed by a run of
white space. -/
theorem trim_append_ws (s : JSString)
    (h : ∀ c, s.head? = some c → isWhiteSpace c = false) :
    ∃ w : JSString, (∀ c ∈ w, isWhiteSpace c = true) ∧ s = trim s ++ w := by
  have hdrop : s.dropWhile isWhiteSpace = s := by
    cases s with
    | nil => rfl
    | cons c cs =>
      have hc := h c rfl
      rw [List.dropWhile_cons_of_neg (by simp [hc])]
  refine ⟨(s.reverse.takeWhile isWhiteSpace).reverse, ?_, ?_⟩
  · intro c hc
    exact List.mem_takeWhile_imp (List.mem_reverse.1 hc)
  · unfold trim
    rw [hdrop, ← List.reverse_append, List.takeWhile_append_dropWhile, List.reverse_reverse]

/-- C19. Every highlight returned by `parseClippings` is the record of a block whose first
line `L` is kept whole by the split into title and author: either the author is
`Unknown Author` and the title is `L`, or `L` is the title, a run `w` of white space, `(`,
the author and `)`, where the author is not empty and has no `)` and the title neither
starts nor ends with white space. -/
theorem parseClippings_title_author (text : JSString) (hl : Highlight)
    (hm : hl ∈ parseClippings text) :
    ∃ block ∈ rawClippings text, ∃ L rest,
      blockLines block = L :: rest ∧ extractHighlight block = some hl ∧
      ((hl.author = lit "Unknown Author" ∧ hl.title = L) ∨
       (∃ w : JSString, (∀ c ∈ w, isWhiteSpace c = true) ∧
          L = hl.title ++ w ++ 40 :: hl.author ++ [41] ∧
          hl.author ≠ [] ∧ 41 ∉ hl.author ∧
          (∀ c, hl.title.head? = some c → isWhiteSpace c = false) ∧
          (∀ c, hl.title.getLast? = some c → isWhiteSpace c = false))) := by
  have hv := mem_validRecords_of_mem_parseClippings text hl hm
  unfold validRecords at hv
  obtain ⟨block, hb, hx⟩ := List.mem_filterMap.1 hv
  obtain ⟨l0, l1, l2, more, hlines, _, ht, ha, _⟩ := extractHighlight_some block hl hx
  refine ⟨block, hb, l0, l1 :: l2 :: more, hlines, hx, ?_⟩
  unfold titleAuthor at ht ha
  cases hr : authorRegex l0 with
  | none =>
    rw [hr] at ht ha
    exact Or.inl ⟨ha, ht⟩
  | some r =>
    obtain ⟨i, a⟩ := r
    rw [hr] at ht ha
    simp only at ht ha
    obtain ⟨P, hs, hlen, hne, h41⟩ := authorRegex_some l0 i a hr
    have htake : l0.take i = P := by
      rw [hs, ← hlen, List.append_assoc]
      exact List.take_left _ _
    rw [htake] at ht
    have hl0 := mem_blockLines block l0 (by rw [hlines]; exact List.mem_cons_self _ _)
    have hP : ∀ c, P.head? = some c → isWhiteSpace c = false := by
      intro c hc
      apply hl0.2.2.1 c
      obtain ⟨ys, hys⟩ := List.head?_eq_some_iff.1 hc
      rw [hs, hys]; rfl
    obtain ⟨w, hw, hPw⟩ := trim_append_ws P hP
    refine Or.inr ⟨w, hw, ?_, by rw [ha]; exact hne, by rw [ha]; exact h41, ?_, ?_⟩
    · rw [ht, ha, ← hPw]; exact hs
    · rw [ht]; exact trim_head_not_ws P
    · rw [ht]; exact trim_last_not_ws P

/-- C19 on the block `Book One  (Jane Doe)`, with two spaces before the parenthesis. -/
theorem parseClippings_title_author_witness :
    parseClippings (lit "Book One  (Jane Doe)\n- location 1-2\nabc") =
      [⟨lit "Book One", lit "Jane Doe", lit "1-2", lit "location 1-2", lit "abc", 3⟩] ∧
    ∃ block ∈ rawClippings (lit "Book One  (Jane Doe)\n- location 1-2\nabc"), ∃ L rest,
      blockLines block = L :: rest ∧
      extractHighlight block =
        some ⟨lit "Book One", lit "Jane Doe", lit "1-2", lit "location 1-2", lit "abc", 3⟩ ∧
      ((lit "Jane Doe" = lit "Unknown Author" ∧ lit "Book One" = L) ∨
       (∃ w : JSString, (∀ c ∈ w, isWhiteSpace c = true) ∧
          L = lit "Book One" ++ w ++ 40 :: lit "Jane Doe" ++ [41] ∧
          lit "Jane Doe" ≠ [] ∧ 41 ∉ lit "Jane Doe" ∧
          (∀ c, (lit "Book One").head? = some c → isWhiteSpace c = false) ∧
          (∀ c, (lit "Book One").getLast? = some c → isWhiteSpace c = false))) :=
  ⟨by decide, parseClippings_title_author _
    ⟨lit "Book One", lit "Jane Doe", lit "1-2", lit "location 1-2", lit "abc", 3⟩
    (by decide)⟩

/-! ## C20: the key separates the highlights -/

/-- C20. The key determines title and location: for all titles (which may hold `|`) and all
locations of the form digits-hyphen-digits, equal keys `title|location` have equal titles
and equal locations. Hence two valid blocks of a text have the same key, and are collapsed
into one entry of the map, only if they have the same title and the same location; valid
blocks that differ in title or location are returned as two distinct highlights. -/
theorem clipKey_separates :
    (∀ t1 t2 l1 l2 : JSString, IsRange l1 → IsRange l2 →
      t1 ++ 124 :: l1 = t2 ++ 124 :: l2 → t1 = t2 ∧ l1 = l2) ∧
    (∀ (text : JSString) (r1 r2 : Highlight),
      r1 ∈ validRecords text → r2 ∈ validRecords text →
      ((clipKey r1 = clipKey r2 ↔ r1.title = r2.title ∧ r1.location = r2.location) ∧
       (¬ (r1.title = r2.title ∧ r1.location = r2.location) →
        ∃ h1 ∈ parseClippings text, ∃ h2 ∈ parseClippings text, h1 ≠ h2 ∧
          h1.title = r1.title ∧ h1.location = r1.location ∧
          h2.title = r2.title ∧ h2.location = r2.location))) := by
  constructor
  · intro t1 t2 l1 l2 h1 h2 h
    exact append_cons_inj 124 t1 l1 t2 l2 (not_mem_of_isRange h1) (not_mem_of_isRange h2) h
  · intro text r1 r2 hr1 hr2
    have inv := dedupInv_validRecords text
    have hi1 := isRange_of_mem_validRecords text r1 hr1
    have hi2 := isRange_of_mem_validRecords text r2 hr2
    refine ⟨⟨clipKey_inj r1 r2 hi1 hi2, fun h => clipKey_eq_of r1 r2 h.1 h.2⟩, ?_⟩
    intro hne
    obtain ⟨p1, hp1, hk1⟩ := List.mem_map.1 (dedupInv_cover inv r1 hr1)
    obtain ⟨p2, hp2, hk2⟩ := List.mem_map.1 (dedupInv_cover inv r2 hr2)
    have hm1 : p1.2 ∈ parseClippings text := by
      rw [parseClippings_eq]; exact List.mem_map_of_mem Prod.snd hp1
    have hm2 : p2.2 ∈ parseClippings text := by
      rw [parseClippings_eq]; exact List.mem_map_of_mem Prod.snd hp2
    have e1 := clipKey_inj p1.2 r1
      (isRange_of_mem_validRecords text _ (mem_validRecords_of_mem_parseClippings text _ hm1))
      hi1 (by rw [← (inv.entry p1 hp1).1, hk1])
    have e2 := clipKey_inj p2.2 r2
      (isRange_of_mem_validRecords text _ (mem_validRecords_of_mem_parseClippings text _ hm2))
      hi2 (by rw [← (inv.entry p2 hp2).1, hk2])
    refine ⟨p1.2, hm1, p2.2, hm2, ?_, e1.1, e1.2, e2.1, e2.2⟩
    intro heq
    apply hne
    rw [← e1.1, ← e1.2, ← e2.1, ← e2.2, heq]
    exact ⟨rfl, rfl⟩

/-- C20 on a title that holds `|` and on the records of `orderText`: the blocks at 1-2 and
at 5-6 are kept apart. -/
theorem clipKey_separates_witness :
    (lit "a|1-2" ++ 124 :: lit "3-4" = lit "a|1-2" ++ 124 :: lit "3-4" →
      lit "a|1-2" = lit "a|1-2" ∧ lit "3-4" = lit "3-4") ∧
    ∃ h1 ∈ parseClippings orderText, ∃ h2 ∈ parseClippings orderText, h1 ≠ h2 ∧
      h1.title = lit "Book" ∧ h1.location = lit "1-2" ∧
      h2.title = lit "Book" ∧ h2.location = lit "5-6" :=
  ⟨clipKey_separates.1 (lit "a|1-2") (lit "a|1-2") (lit "3-4") (lit "3-4")
      ⟨lit "3", lit "4", by decide, by decide, by decide, by decide, by decide⟩
      ⟨lit "3", lit "4", by decide, by decide, by decide, by decide, by decide⟩,
    (clipKey_separates.2 orderText
      ⟨lit "Book", lit "Ann", lit "1-2", lit "location 1-2", lit "abc", 3⟩
      ⟨lit "Book", lit "Ann", lit "5-6", lit "location 5-6", lit "xyz", 3⟩
      (by decide) (by decide)).2 (by decide)⟩

end KindleClippings
